import Mathlib

/-!
# Verification of the Basilisk II / SheepShaver preferences config parser

Shallow embedding of `ConfigParser.parse` and `ConfigParser.save` from
`src/main.py` (lines 29-86).  Strings are modelled as `List Char` (the
characters of the decoded text).  Python string primitives used by the code
(`str.strip`, `str.split(' ', 1)`, `str.lower`, `str.isdigit`, `int()`,
`float()`) are modelled character-for-character for ASCII text; the model
additionally covers the Latin-1 superscript digits U+00B9/U+00B2/U+00B3,
which `str.isdigit` accepts (Unicode property Numeric_Type=Digit) while
`int()` rejects (it accepts only Numeric_Type=Decimal digits).  Other
non-ASCII numeric characters are treated as ordinary characters.
-/

abbrev Str := List Char

/-- Python whitespace stripped by `str.strip()` (ASCII part: space, tab,
newline, carriage return, vertical tab, form feed). -/
def isPySpace (c : Char) : Bool :=
  c = ' ' || c = '\t' || c = '\n' || c = '\r' || c = '\x0b' || c = '\x0c'

/-- `str.strip()`: drop leading and trailing whitespace. -/
def pyStrip (s : Str) : Str :=
  ((s.dropWhile isPySpace).reverse.dropWhile isPySpace).reverse

/-- `str.lower()` (ASCII case folding; the config claims only use ASCII). -/
def pyLower (s : Str) : Str := s.map Char.toLower

/-- Splitting a file's text into the lines yielded by iterating the file in
Python text mode (universal newlines: a line ends at `\n`, `\r\n` or a lone
`\r`; a final fragment without a terminator is still a line; a trailing
terminator does not create an empty extra line).  The returned lines carry
no terminator, matching the model's per-line processing (the code strips
each line anyway). -/
def splitLinesAux : Bool → Str → List Str
  | _, [] => []
  | afterCR, c :: rest =>
    if c = '\n' then
      if afterCR then splitLinesAux false rest
      else [] :: splitLinesAux false rest
    else if c = '\r' then [] :: splitLinesAux true rest
    else
      match splitLinesAux false rest with
      | [] => [[c]]
      | l :: ls => (c :: l) :: ls

def pySplitLines (s : Str) : List Str := splitLinesAux false s

/-- Join lines back into file text, one `\n` after each line — the shape of
text produced by `save` (`f.write(f"... \n")`). -/
def joinLines : List Str → Str
  | [] => []
  | l :: ls => l ++ '\n' :: joinLines ls

/-- `line.split(' ', 1)` when the separator occurs: returns the part before
the first space and everything after it.  `none` when the line has no space
(Python returns a one-element list). -/
def pySplit1 : Str → Option (Str × Str)
  | [] => none
  | c :: rest =>
    if c = ' ' then some ([], rest)
    else (pySplit1 rest).map (fun p => (c :: p.1, p.2))

/-- The key/value extraction of `parse` (src/main.py:47-49):
`parts = line.split(' ', 1); key = parts[0];
value = parts[1] if len(parts) > 1 else ''`. -/
def keyValueOf (line : Str) : Str × Str :=
  match pySplit1 line with
  | some (k, v) => (k, v)
  | none => (line, [])

/-- ASCII decimal digit (code points 48–57). -/
def isDig (c : Char) : Bool := 48 ≤ c.toNat && c.toNat ≤ 57

/-- `str.isdigit()`: nonempty and every character has Unicode property
Numeric_Type=Digit or Decimal.  Modelled for ASCII digits plus the Latin-1
superscripts (Numeric_Type=Digit, so `isdigit` is true but `int()` fails
on them). -/
def charPyDigit (c : Char) : Bool :=
  isDig c || c = '¹' || c = '²' || c = '³'

def pyIsDigit (s : Str) : Bool :=
  !s.isEmpty && s.all charPyDigit

/-- Numeric value of a digit string read left to right. -/
def natOfStr (s : Str) : ℕ :=
  s.foldl (fun a c => 10 * a + (c.toNat - 48)) 0

/-- `int(value)` as called on an `isdigit`-true token: succeeds exactly when
every character is a decimal digit (Numeric_Type=Decimal; ASCII here), and
raises `ValueError` — modelled as `none` — on digit-property characters such
as `'²'`. -/
def pyIntParse (s : Str) : Option ℤ :=
  if !s.isEmpty && s.all isDig then some (natOfStr s) else none

/-- The value of a Python float in the model: a finite value is the exact
decimal `m * 10 ^ e`, kept in the normal form produced by `normFloat`
(mantissa not divisible by ten, and `(0, 0)` for zero), so that structural
equality of the constructors coincides with equality of the denoted values.
CPython's rounding of decimal literals to binary doubles, overflow of huge
exponents to infinity and the sign of negative zero are not modelled; no
claim distinguishes a literal from its rounded double.  Signed infinity and
NaN are separate. -/
inductive PyFloat where
  | finite (m e : ℤ)
  | inf (negative : Bool)
  | nan
deriving DecidableEq

/-- Strip factors of ten from the mantissa into the exponent (fuel-based so
that it reduces definitionally; fuel `|m|` always suffices). -/
def stripTens : ℕ → ℤ → ℤ → ℤ × ℤ
  | 0, m, e => (m, e)
  | fuel + 1, m, e =>
    if m % 10 = 0 ∧ m ≠ 0 then stripTens fuel (m / 10) (e + 1) else (m, e)

/-- Normal form of a decimal `m * 10 ^ e`: zero is `(0, 0)`, otherwise the
mantissa carries no factor of ten. -/
def normFloat (m e : ℤ) : ℤ × ℤ :=
  if m = 0 then (0, 0) else stripTens m.natAbs m e

/-- The invariant every `finite` float built by `parseFloat` satisfies. -/
def IsNormFloat (m e : ℤ) : Prop := (m = 0 ∧ e = 0) ∨ ¬ m % 10 = 0

/-- Scanner for a digit run with PEP-515 underscores (`1_000`): a digit,
then digits, each optionally preceded by a single underscore.  Returns the
digits (underscores removed) and the unconsumed rest; an invalid underscore
stops the scan before it.  `afterU` records a tentatively consumed
underscore: it must be followed by a digit, otherwise the scan stops
before it and the underscore is restored to the rest. -/
def scanDUAux (afterU : Bool) : Str → Str × Str
  | [] => if afterU then ([], ['_']) else ([], [])
  | c :: rest =>
    if isDig c then
      (c :: (scanDUAux false rest).1, (scanDUAux false rest).2)
    else if afterU then ([], '_' :: c :: rest)
    else if c = '_' then scanDUAux true rest
    else ([], c :: rest)

def scanDU : Str → Str × Str
  | [] => ([], [])
  | c :: rest =>
    if isDig c then (c :: (scanDUAux false rest).1, (scanDUAux false rest).2)
    else ([], c :: rest)

/-- Optional sign; returns plus or minus one, and the rest. -/
def readSign (s : Str) : ℤ × Str :=
  match s with
  | c :: rest => if c = '+' then (1, rest) else if c = '-' then (-1, rest) else (1, s)
  | [] => (1, s)

/-- Exponent suffix of a float literal: empty ok (exponent 0), else
`e`/`E`, optional sign, digit run consuming the whole rest. -/
def parseExpPart : Str → Option ℤ
  | [] => some 0
  | c :: rest =>
    if c = 'e' ∨ c = 'E' then
      match readSign rest with
      | (sg, r) =>
        match scanDU r with
        | (ds, r2) => if ds.isEmpty || !r2.isEmpty then none else some (sg * natOfStr ds)
    else none

/-- The numeric body of a float literal (after sign):
`digits [. digits] [exp]` or `. digits [exp]`, with underscores allowed in
each digit run.  Returns the nonnegative mantissa `I*10^|F| + F` and the
exponent `E - |F|`; the denoted value is `mantissa * 10 ^ exponent`. -/
def parseNumTail (ipart r1 : Str) : Option (ℤ × ℤ) :=
  if ipart.isEmpty then none
  else (parseExpPart r1).map (fun e => ((natOfStr ipart : ℤ), e))

def parseNumBody (s : Str) : Option (ℤ × ℤ) :=
  match scanDU s with
  | (ipart, r1) =>
    match r1 with
    | [] => parseNumTail ipart []
    | c :: r2 =>
      if c = '.' then
        match scanDU r2 with
        | (fpart, r3) =>
          if ipart.isEmpty && fpart.isEmpty then none
          else
            (parseExpPart r3).map (fun e =>
              ((natOfStr ipart * 10 ^ fpart.length + natOfStr fpart : ℤ),
                e - (fpart.length : ℤ)))
      else parseNumTail ipart (c :: r2)

/-- `float(value)`: strip whitespace, optional sign, then `inf`,
`infinity`, `nan` (case-insensitive) or a numeric body.  `none` models
`ValueError` (which `parse` catches). -/
def parseFloat (s : Str) : Option PyFloat :=
  match readSign (pyStrip s) with
  | (sg, body) =>
    let low := pyLower body
    if low = "inf".data ∨ low = "infinity".data then some (.inf (sg < 0))
    else if low = "nan".data then some .nan
    else
      (parseNumBody body).map (fun p =>
        match normFloat (sg * p.1) p.2 with
        | (m, e) => .finite m e)

/-- A scalar value of the config dictionary: the dynamic type a parsed
value can have in the source, plus the list type of the `disks` entry. -/
inductive Value where
  | bool (b : Bool)
  | int (n : ℤ)
  | float (f : PyFloat)
  | str (s : Str)
  | list (l : List Str)
deriving DecidableEq

instance : Inhabited PyFloat := ⟨.nan⟩

instance : Inhabited Value := ⟨.bool false⟩

/-- A Python dict in insertion order: association list, keys unique. -/
abbrev Config := List (Str × Value)

/-- `config[key] = value`: overwrite in place if the key exists (Python
dicts keep the original insertion position — the parse loop only ever
holds unique keys, so replacing the first occurrence is dict
assignment), else append. -/
def insertKV : Config → Str → Value → Config
  | [], k, v => [(k, v)]
  | p :: rest, k, v =>
    if p.1 = k then (k, v) :: rest else p :: insertKV rest k v

/-- Dictionary lookup. -/
def lookupVal : Config → Str → Option Value
  | [], _ => none
  | p :: rest, k => if p.1 = k then some p.2 else lookupVal rest k

/-- The value-conversion chain of `parse` (src/main.py:55-66): lowercased
`true`/`false` to bool, `isdigit` to int (where `int()` can raise, see
`pyIntParse`), then `float()` with `ValueError` falling back to the
original string. -/
def inferValue (value : Str) : Option Value :=
  if pyLower value = "true".data then some (.bool true)
  else if pyLower value = "false".data then some (.bool false)
  else if pyIsDigit value then (pyIntParse value).map .int
  else
    match parseFloat value with
    | some f => some (.float f)
    | none => some (.str value)

/-- Strip, blank test and key/value split for one line; `none` for a
skipped blank line. -/
def lineEntry? (l : Str) : Option (Str × Str) :=
  let s := pyStrip l
  if s.isEmpty then none else some (keyValueOf s)

/-- One iteration of the parse loop over `(config, disks)`.  `none` models
an uncaught `ValueError` escaping from `int()`. -/
def processLine (st : Config × List Str) (l : Str) : Option (Config × List Str) :=
  match lineEntry? l with
  | none => some st
  | some (k, v) =>
    if k = "disk".data then some (st.1, st.2 ++ [v])
    else (inferValue v).map (fun w => (insertKV st.1 k w, st.2))

/-- `ConfigParser.parse` on the lines of an existing file: the loop, then
`config['disks'] = disks`. -/
def parseLines (lines : List Str) : Option Config := do
  let st ← lines.foldlM processLine ([], [])
  pure (insertKV st.1 "disks".data (.list st.2))

/-- `ConfigParser.parse` on a path: `none` input models a path that does
not exist (`os.path.exists` false), returning the dict as-is — note the
early return happens before `config['disks'] = disks`, so the result is
`{}` with no `disks` key.  The outer `Option` models raising. -/
def parse (file : Option Str) : Option Config :=
  match file with
  | none => some []
  | some content => parseLines (pySplitLines content)

/-- Digits of a natural number, most significant first (fuel-based so that
it reduces definitionally).  `str(int)` for nonnegative ints. -/
def digitChar (d : ℕ) : Char := Char.ofNat (48 + d)

def natToStrAux : ℕ → ℕ → Str
  | 0, _ => []
  | fuel + 1, n =>
    if n = 0 then [] else natToStrAux fuel (n / 10) ++ [digitChar (n % 10)]

def natToStr (n : ℕ) : Str :=
  if n = 0 then ['0'] else natToStrAux n n

/-- `str()` of a Python int. -/
def intRepr (i : ℤ) : Str :=
  if i < 0 then '-' :: natToStr i.natAbs else natToStr i.natAbs

/-- `str()` of a Python float: `nan`, `inf`/`-inf`, or a plain decimal
rendering with at least one digit on each side of the point (`str(2.0)` is
`"2.0"`, `str(1.5)` is `"1.5"`, `str(0.1)` is `"0.1"`).  CPython switches
to scientific notation for very large/small magnitudes and prints the
shortest repr of the rounded double; the plain exact rendering used here
agrees with CPython on values a config file plausibly holds and is
re-parsed to the same value either way. -/
def floatRepr : PyFloat → Str
  | .nan => "nan".data
  | .inf negative => if negative then "-inf".data else "inf".data
  | .finite m e =>
    let digitsPart :=
      if 0 ≤ e then natToStr (m.natAbs * 10 ^ e.toNat) ++ ".0".data
      else
        let k := (-e).toNat
        let D := natToStr m.natAbs
        let P := List.replicate (k + 1 - D.length) '0' ++ D
        P.take (P.length - k) ++ '.' :: P.drop (P.length - k)
    if m < 0 then '-' :: digitsPart else digitsPart

/-- `repr()` of a Python list of strings, as interpolated by
`f"{key} {value}"` if a list value other than `disks` were ever written
(no claim exercises this; CPython's escaping inside the quotes is not
modelled). -/
def listRepr (l : List Str) : Str :=
  let quote := Char.ofNat 39
  let items := l.map (fun s => quote :: s ++ [quote])
  '[' :: joinSep items ++ [']']
where
  joinSep : List Str → Str
    | [] => []
    | [s] => s
    | s :: rest => s ++ ',' :: ' ' :: joinSep rest

/-- The text `f"{key} {value}"` puts after the key (src/main.py:84-86):
bools are rewritten to the lowercase literals first, everything else is
`str()`. -/
def renderValue : Value → Str
  | .bool b => if b then "true".data else "false".data
  | .int i => intRepr i
  | .float f => floatRepr f
  | .str s => s
  | .list l => listRepr l

/-- `config.get('disks', [])` as iterated by the save loop: the stored
list, or nothing when absent.  Iterating a string value yields its
characters (Python string iteration); a bool/int/float `disks` value would
raise `TypeError` in Python — not modelled, no claim reaches it. -/
def disksOf (config : Config) : List Str :=
  match lookupVal config "disks".data with
  | some (.list l) => l
  | some (.str s) => s.map (fun c => [c])
  | _ => []

/-- The lines written by `ConfigParser.save` (src/main.py:72-86): every
disk entry first, as `disk <value>`, in sequence order; then every other
entry as `<key> <value>` in dict iteration order, skipping `disks`. -/
def saveLines (config : Config) : List Str :=
  (disksOf config).map (fun d => "disk ".data ++ d)
    ++ (config.filter (fun p => decide (¬ p.1 = "disks".data))).map
        (fun p => p.1 ++ ' ' :: renderValue p.2)

/-- `ConfigParser.save`: the file text written. -/
def save (config : Config) : Str := joinLines (saveLines config)

/-- No line-breaking character: text that survives a write/read cycle as a
single line. -/
def lineClean (s : Str) : Bool :=
  s.all (fun c => !decide (c = '\n') && !decide (c = '\r'))

/-- First character (if any) is not Python whitespace. -/
def headOKb : Str → Bool
  | [] => true
  | c :: _ => !isPySpace c

/-- Last character (if any) is not Python whitespace. -/
def lastOKb (s : Str) : Bool := headOKb s.reverse

/-- The values of the `disk`-keyed lines of a file, in file order — the
spec's disk sequence read off the raw lines. -/
def diskValuesOf (lines : List Str) : List Str :=
  lines.filterMap (fun l =>
    match lineEntry? l with
    | some (k, v) => if k = "disk".data then some v else none
    | none => none)

/-- The value of the last non-blank line whose key is `key`. -/
def lastScalarValue (lines : List Str) (key : Str) : Option Str :=
  (lines.filterMap (fun l =>
    match lineEntry? l with
    | some (k, v) => if k = key then some v else none
    | none => none)).getLast?

/-- What the mapping holds at a key after the loop: the inferred value of
the last line with that key, or the previous binding when no line has it. -/
def lastWins (o : Option Str) (dflt : Option Value) : Option Value :=
  match o with
  | some v => inferValue v
  | none => dflt

/-- Modelled from the spec (claim C3): splitting a line "at the first
whitespace run" — the key is the text before the run, the value the
remainder of the line after the run. -/
def specSplitWS (line : Str) : Str × Str :=
  (line.takeWhile (fun c => !isPySpace c),
    (line.dropWhile (fun c => !isPySpace c)).dropWhile isPySpace)

/-- The numeric content of a value under Python `==`: bools are the ints 0
and 1, ints and finite floats are decimals, infinities compare by sign.
`none` for NaN — a freshly parsed NaN compares unequal to every float,
itself included (the `x is y` identity shortcut inside container comparison
never fires between a document and its reparse, which hold distinct float
objects). -/
inductive NumV where
  | fin (m e : ℤ)
  | inf (negative : Bool)

def vNum : Value → Option NumV
  | .bool b => some (.fin (if b then 1 else 0) 0)
  | .int n => some (.fin n 0)
  | .float (.finite m e) => some (.fin m e)
  | .float (.inf b) => some (.inf b)
  | .float .nan => none
  | _ => none

/-- Equality of numeric contents: scale both decimals to the smaller
exponent and compare integers. -/
def numEq : NumV → NumV → Bool
  | .fin a ea, .fin b eb =>
    decide (a * 10 ^ (ea - min ea eb).toNat = b * 10 ^ (eb - min ea eb).toNat)
  | .inf a, .inf b => a == b
  | _, _ => false

/-- Python `==` on two scalar values (numbers compare across bool/int/float;
strings and lists compare elementwise; everything else is unequal). -/
def pyValueEq : Value → Value → Bool
  | .str a, .str b => decide (a = b)
  | .str _, _ => false
  | _, .str _ => false
  | .list a, .list b => decide (a = b)
  | .list _, _ => false
  | _, .list _ => false
  | a, b =>
    match vNum a, vNum b with
    | some x, some y => numEq x y
    | _, _ => false

/-- Python `==` on two dicts: same key set and `==` on the value at each
key (keys in a parsed config are unique, so first-match lookup is the
dict lookup). -/
def pyDictEq (a b : Config) : Bool :=
  a.all (fun p =>
    match lookupVal b p.1 with
    | some w => pyValueEq p.2 w
    | none => false)
  && b.all (fun p => (lookupVal a p.1).isSome)

/-- Conditions on a stored value that make its written line re-parse to the
same value: the rendering re-infers to the value, is line-clean, and the
line strips to itself (the key absorbs the trailing-space case of an empty
rendering).  The `disks` list instead needs clean, non-whitespace-ending
entries. -/
def valueOK (k : Str) : Value → Prop
  | .list l => k = "disks".data ∧ ∀ d ∈ l, lineClean d = true ∧ lastOKb d = true
  | v => inferValue (renderValue v) = some v ∧ lineClean (renderValue v) = true
      ∧ (renderValue v = [] → lastOKb k = true)
      ∧ (¬ renderValue v = [] → lastOKb (renderValue v) = true)

/-- Well-formedness of one entry of a parsed config. -/
def entryOK (p : Str × Value) : Prop :=
  ¬ p.1 = [] ∧ headOKb p.1 = true ∧ lineClean p.1 = true ∧ (' ' ∉ p.1)
  ∧ ¬ p.1 = "disk".data ∧ valueOK p.1 p.2

/-- Well-formedness of a parsed config: unique keys, each entry ok. -/
def WFcfg (cfg : Config) : Prop :=
  (cfg.map Prod.fst).Nodup ∧ ∀ p ∈ cfg, entryOK p

example : pyValueEq (.bool true) (.int 1) = true := by decide
example : pyValueEq (.int 1) (.float (.finite 1 0)) = true := by decide
example : pyValueEq (.float .nan) (.float .nan) = false := by decide
example : pyValueEq (.int 5) (.str "5".data) = false := by decide
example : pyValueEq (.float (.finite 15 (-1))) (.float (.finite 15 (-1))) = true := by
  decide

example : pyStrip "  jit true \n".data = "jit true".data := by decide
example : keyValueOf "jit true".data = ("jit".data, "true".data) := by decide
example : keyValueOf "extfs /Users/me/My Files".data
    = ("extfs".data, "/Users/me/My Files".data) := by decide
example : keyValueOf "nosound".data = ("nosound".data, []) := by decide
example : inferValue "TRUE".data = some (.bool true) := by decide
example : inferValue "128".data = some (.int 128) := by decide
example : inferValue "/dev/dsp".data = some (.str "/dev/dsp".data) := by decide
example : inferValue "²".data = none := by decide
example : parseFloat "1.5".data = some (.finite 15 (-1)) := by decide
example : parseFloat "".data = none := by decide
example : parseFloat " 1.5".data = some (.finite 15 (-1)) := by decide
example : parseFloat "-inf".data = some (.inf true) := by decide
example : parseFloat "1_0.5e1".data = some (.finite 105 0) := by decide
example : parseFloat "1_".data = none := by decide
example : parseFloat "2.0".data = some (.finite 2 0) := by decide
example : floatRepr (.finite 15 (-1)) = "1.5".data := by decide
example : floatRepr (.finite 2 0) = "2.0".data := by decide
example : floatRepr (.finite 1 (-1)) = "0.1".data := by decide
example : floatRepr (.finite (-15) (-1)) = "-1.5".data := by decide
example : floatRepr (.finite 1 2) = "100.0".data := by decide
example :
    parse (some "disk /a.img\njit true\nramsize 128\n".data)
      = some [("jit".data, .bool true), ("ramsize".data, .int 128),
              ("disks".data, .list ["/a.img".data])] := by decide
example : pySplitLines "a\r\nb\rc\n".data = ["a".data, "b".data, "c".data] := by decide
example : save [("jit".data, .bool true), ("disks".data, .list ["/a img".data])]
    = "disk /a img\njit true\n".data := by decide


/-! ## Lemmas about the line split -/

theorem pySplit1_none : ∀ {s : Str}, pySplit1 s = none → ' ' ∉ s := by
  intro s
  induction s with
  | nil => intro _ h; cases h
  | cons c rest ih =>
    intro h hm
    by_cases hc : c = ' '
    · simp [pySplit1, hc] at h
    · simp only [pySplit1, hc, if_false, if_neg hc] at h
      rcases List.mem_cons.1 hm with h1 | h1
      · exact hc h1.symm
      · exact ih (Option.map_eq_none'.1 h) h1

theorem pySplit1_some : ∀ {s a b : Str}, pySplit1 s = some (a, b) →
    s = a ++ ' ' :: b ∧ ' ' ∉ a := by
  intro s
  induction s with
  | nil => intro a b h; cases h
  | cons c rest ih =>
    intro a b h
    by_cases hc : c = ' '
    · subst hc
      rw [show pySplit1 (' ' :: rest) = some (([] : Str), rest) from rfl] at h
      injection h with h1
      injection h1 with ha hb
      subst ha; subst hb
      exact ⟨rfl, by simp⟩
    · simp only [pySplit1, if_neg hc, Option.map_eq_some'] at h
      obtain ⟨⟨a', b'⟩, hrec, heq⟩ := h
      cases heq
      obtain ⟨hs, hna⟩ := ih hrec
      refine ⟨by simpa using congrArg (c :: ·) hs, ?_⟩
      intro hmem
      rcases List.mem_cons.1 hmem with h1 | h1
      · exact hc h1.symm
      · exact hna h1

theorem pySplit1_append (k v : Str) (hk : ' ' ∉ k) :
    pySplit1 (k ++ ' ' :: v) = some (k, v) := by
  induction k with
  | nil => simp [pySplit1]
  | cons c k' ih =>
    have hc : ¬ c = ' ' := fun h => hk (h ▸ List.mem_cons_self c k')
    have hk' : ' ' ∉ k' := fun h => hk (List.mem_cons_of_mem c h)
    simp [pySplit1, hc, ih hk']

theorem keyValueOf_no_space (s : Str) (h : ' ' ∉ s) : keyValueOf s = (s, []) := by
  unfold keyValueOf
  cases hs : pySplit1 s with
  | none => rfl
  | some p =>
    obtain ⟨a, b⟩ := p
    exact absurd ((pySplit1_some hs).1 ▸ List.mem_append_right a (List.mem_cons_self _ _)) h

theorem keyValueOf_append (k v : Str) (hk : ' ' ∉ k) :
    keyValueOf (k ++ ' ' :: v) = (k, v) := by
  unfold keyValueOf
  rw [pySplit1_append k v hk]

/-- The code's split, characterised: the key is the text before the first
space, the value everything after that single space (empty when the line
has no space). -/
theorem keyValueOf_cons_ne (c : Char) (rest : Str) (hc : ¬ c = ' ') :
    keyValueOf (c :: rest) = (c :: (keyValueOf rest).1, (keyValueOf rest).2) := by
  unfold keyValueOf
  simp only [pySplit1, if_neg hc]
  cases hs : pySplit1 rest with
  | none => simp
  | some p => obtain ⟨a, b⟩ := p; simp

/-- The code's split, characterised: the key is the text before the first
space, the value everything after that single space (empty when the line
has no space). -/
theorem keyValueOf_takeWhile (s : Str) :
    keyValueOf s
      = (s.takeWhile (fun c => !decide (c = ' ')),
         (s.dropWhile (fun c => !decide (c = ' '))).tail) := by
  induction s with
  | nil => rfl
  | cons c rest ih =>
    by_cases hc : c = ' '
    · subst hc
      simp [keyValueOf, pySplit1, List.takeWhile_cons, List.dropWhile_cons]
    · rw [keyValueOf_cons_ne c rest hc, ih,
        List.takeWhile_cons, List.dropWhile_cons]
      simp [hc]

theorem keyValueOf_fst_no_space (s : Str) : ' ' ∉ (keyValueOf s).1 := by
  unfold keyValueOf
  cases hs : pySplit1 s with
  | none => exact pySplit1_none hs
  | some p =>
    obtain ⟨a, b⟩ := p
    exact (pySplit1_some hs).2

/-- Decomposition of a line by the code's split. -/
theorem keyValueOf_decomp (s : Str) :
    (keyValueOf s).2 = [] ∧ s = (keyValueOf s).1
    ∨ s = (keyValueOf s).1 ++ ' ' :: (keyValueOf s).2 := by
  unfold keyValueOf
  cases hs : pySplit1 s with
  | none => exact Or.inl ⟨rfl, rfl⟩
  | some p =>
    obtain ⟨a, b⟩ := p
    exact Or.inr (pySplit1_some hs).1


/-! ## Lemmas about dict insertion and lookup -/

theorem lookupVal_insert_self (m : Config) (k : Str) (v : Value) :
    lookupVal (insertKV m k v) k = some v := by
  induction m with
  | nil => simp [insertKV, lookupVal]
  | cons p rest ih =>
    by_cases hp : p.1 = k
    · simp [insertKV, hp, lookupVal]
    · simp [insertKV, hp, lookupVal, ih]

theorem lookupVal_insert_other (m : Config) (k : Str) (v : Value) (k' : Str)
    (h : ¬ k' = k) : lookupVal (insertKV m k v) k' = lookupVal m k' := by
  induction m with
  | nil => simp [insertKV, lookupVal, Ne.symm h]
  | cons p rest ih =>
    by_cases hp : p.1 = k
    · subst hp
      simp [insertKV, lookupVal, Ne.symm h]
    · simp only [insertKV, if_neg hp, lookupVal]
      by_cases hq : p.1 = k' <;> simp [hq, ih]

theorem insertKV_fresh (m : Config) (k : Str) (v : Value)
    (h : lookupVal m k = none) : insertKV m k v = m ++ [(k, v)] := by
  induction m with
  | nil => rfl
  | cons p rest ih =>
    by_cases hp : p.1 = k
    · simp [lookupVal, hp] at h
    · simp only [lookupVal, if_neg hp] at h
      simp [insertKV, hp, ih h]

theorem insertKV_keys (m : Config) (k : Str) (v : Value) :
    (insertKV m k v).map Prod.fst
      = if k ∈ m.map Prod.fst then m.map Prod.fst else m.map Prod.fst ++ [k] := by
  induction m with
  | nil => simp [insertKV]
  | cons p rest ih =>
    by_cases hp : p.1 = k
    · simp [insertKV, hp]
    · have : ¬ k = p.1 := fun hh => hp hh.symm
      simp only [insertKV, if_neg hp, List.map_cons, List.mem_cons, this,
        false_or, ih]
      by_cases hk : k ∈ rest.map Prod.fst <;> simp [hk]

theorem insertKV_nodup (m : Config) (k : Str) (v : Value)
    (h : (m.map Prod.fst).Nodup) : ((insertKV m k v).map Prod.fst).Nodup := by
  rw [insertKV_keys]
  by_cases hk : k ∈ m.map Prod.fst
  · simpa [hk]
  · rw [if_neg hk, List.nodup_append]
    refine ⟨h, List.nodup_singleton k, ?_⟩
    intro a ha hb
    rw [List.mem_singleton] at hb
    exact hk (hb ▸ ha)

theorem insertKV_mem {m : Config} {k : Str} {v : Value} {p : Str × Value}
    (h : p ∈ insertKV m k v) : p = (k, v) ∨ p ∈ m := by
  induction m with
  | nil => simpa [insertKV] using h
  | cons q rest ih =>
    by_cases hq : q.1 = k
    · simp only [insertKV, if_pos hq, List.mem_cons] at h
      rcases h with h | h
      · exact Or.inl h
      · exact Or.inr (List.mem_cons_of_mem q h)
    · simp only [insertKV, if_neg hq, List.mem_cons] at h
      rcases h with h | h
      · exact Or.inr (h ▸ List.mem_cons_self q rest)
      · rcases ih h with h1 | h1
        · exact Or.inl h1
        · exact Or.inr (List.mem_cons_of_mem q h1)

theorem lookupVal_of_mem {m : Config} (h : (m.map Prod.fst).Nodup)
    {p : Str × Value} (hp : p ∈ m) : lookupVal m p.1 = some p.2 := by
  induction m with
  | nil => cases hp
  | cons q rest ih =>
    rcases List.mem_cons.1 hp with h1 | h1
    · subst h1
      simp [lookupVal]
    · have hq : ¬ q.1 = p.1 := by
        intro he
        have : p.1 ∈ rest.map Prod.fst := List.mem_map_of_mem Prod.fst h1
        rw [List.map_cons, List.nodup_cons] at h
        exact h.1 (he ▸ this)
      simp only [lookupVal, if_neg hq]
      exact ih (by rw [List.map_cons, List.nodup_cons] at h; exact h.2) h1

theorem lookupVal_append_left {m1 : Config} {k : Str} {v : Value} (m2 : Config)
    (h : lookupVal m1 k = some v) : lookupVal (m1 ++ m2) k = some v := by
  induction m1 with
  | nil => cases h
  | cons p rest ih =>
    by_cases hp : p.1 = k
    · simpa [lookupVal, hp] using h
    · simp only [lookupVal, if_neg hp] at h
      simpa [lookupVal, hp] using ih h

theorem lookupVal_append_right {m1 : Config} {k : Str} (m2 : Config)
    (h : lookupVal m1 k = none) : lookupVal (m1 ++ m2) k = lookupVal m2 k := by
  induction m1 with
  | nil => rfl
  | cons p rest ih =>
    by_cases hp : p.1 = k
    · simp [lookupVal, hp] at h
    · simp only [lookupVal, if_neg hp] at h
      simpa [lookupVal, hp] using ih h

theorem lookupVal_eq_none {m : Config} {k : Str}
    (h : k ∉ m.map Prod.fst) : lookupVal m k = none := by
  induction m with
  | nil => rfl
  | cons p rest ih =>
    simp only [List.map_cons, List.mem_cons] at h
    push_neg at h
    have : ¬ p.1 = k := fun hh => h.1 hh.symm
    simp [lookupVal, this, ih h.2]

/-! ## Lemmas about the parse fold -/

theorem foldlM_append_opt {α β : Type} (f : β → α → Option β) :
    ∀ (xs ys : List α) (b : β),
      List.foldlM f b (xs ++ ys)
        = (List.foldlM f b xs).bind (fun b' => List.foldlM f b' ys) := by
  intro xs
  induction xs with
  | nil => intro ys b; simp
  | cons x t ih =>
    intro ys b
    simp only [List.cons_append, List.foldlM_cons]
    cases f b x with
    | none => simp
    | some b1 => simp [ih]

theorem processLine_blank (st : Config × List Str) (l : Str)
    (h : lineEntry? l = none) : processLine st l = some st := by
  unfold processLine
  rw [h]

theorem processLine_entry (st : Config × List Str) (l : Str) (k v : Str)
    (h : lineEntry? l = some (k, v)) :
    processLine st l
      = if k = "disk".data then some (st.1, st.2 ++ [v])
        else (inferValue v).map (fun w => (insertKV st.1 k w, st.2)) := by
  unfold processLine
  rw [h]

theorem fold_disks : ∀ (lines : List Str) (st st' : Config × List Str),
    List.foldlM processLine st lines = some st' →
    st'.2 = st.2 ++ diskValuesOf lines := by
  intro lines
  induction lines with
  | nil =>
    intro st st' h
    simp only [List.foldlM_nil] at h
    cases h
    simp [diskValuesOf]
  | cons l ls ih =>
    intro st st' h
    simp only [List.foldlM_cons] at h
    cases hpl : processLine st l with
    | none => rw [hpl] at h; cases h
    | some st1 =>
      rw [hpl] at h
      have h2 := ih st1 st' h
      cases he : lineEntry? l with
      | none =>
        rw [processLine_blank st l he] at hpl
        cases hpl
        simpa [diskValuesOf, he] using h2
      | some kv =>
        obtain ⟨k, v⟩ := kv
        rw [processLine_entry st l k v he] at hpl
        by_cases hk : k = "disk".data
        · rw [if_pos hk] at hpl
          cases hpl
          simp only [diskValuesOf, List.filterMap_cons, he, hk, if_pos rfl]
          simpa [diskValuesOf, List.append_assoc] using h2
        · rw [if_neg hk] at hpl
          cases hw : inferValue v with
          | none => rw [hw] at hpl; cases hpl
          | some w =>
            rw [hw] at hpl
            simp only [Option.map_some'] at hpl
            cases hpl
            simpa [diskValuesOf, List.filterMap_cons, he, hk] using h2


/-! ## Lemmas about stripping and rendered lines -/

theorem dropWhile_headOK (s : Str) (h : headOKb s = true) :
    s.dropWhile isPySpace = s := by
  cases s with
  | nil => rfl
  | cons c t =>
    simp only [headOKb, Bool.not_eq_true'] at h
    simp [List.dropWhile_cons, h]

theorem pyStrip_noop (s : Str) (h1 : headOKb s = true) (h2 : lastOKb s = true) :
    pyStrip s = s := by
  unfold pyStrip
  rw [dropWhile_headOK s h1, dropWhile_headOK s.reverse h2, List.reverse_reverse]

theorem headOKb_append (k t : Str) (hk : k ≠ []) :
    headOKb (k ++ t) = headOKb k := by
  cases k with
  | nil => exact absurd rfl hk
  | cons c k' => rfl

theorem lastOKb_append (a b : Str) (hb : b ≠ []) :
    lastOKb (a ++ b) = lastOKb b := by
  unfold lastOKb
  rw [List.reverse_append, headOKb_append _ _ (by simpa using hb)]

theorem pyStrip_key_space (k : Str) (hne : k ≠ []) (h1 : headOKb k = true)
    (h2 : lastOKb k = true) : pyStrip (k ++ [' ']) = k := by
  have hh : headOKb (k ++ [' ']) = true := by
    rw [headOKb_append k [' '] hne]; exact h1
  unfold pyStrip
  rw [dropWhile_headOK _ hh]
  rw [show ((k ++ [' ']).reverse : Str) = ' ' :: k.reverse by simp]
  rw [List.dropWhile_cons, if_pos (show isPySpace ' ' = true from rfl)]
  rw [dropWhile_headOK k.reverse h2, List.reverse_reverse]

theorem lineClean_append (a b : Str) :
    lineClean (a ++ b) = (lineClean a && lineClean b) := by
  simp [lineClean, List.all_append]

theorem lineEntry?_diskline (d : Str) (hl : lastOKb d = true) :
    lineEntry? ("disk ".data ++ d) = some ("disk".data, d) := by
  cases d with
  | nil => rfl
  | cons c d' =>
    have hstrip : pyStrip ("disk ".data ++ (c :: d')) = "disk ".data ++ (c :: d') := by
      apply pyStrip_noop
      · rw [headOKb_append _ _ (by decide)]; decide
      · rw [lastOKb_append _ _ (by simp)]; exact hl
    simp only [lineEntry?, hstrip]
    rw [show ("disk ".data ++ (c :: d') : Str) = "disk".data ++ ' ' :: (c :: d') from rfl]
    rw [keyValueOf_append _ _ (by decide)]
    rfl

theorem processLine_diskline (st : Config × List Str) (d : Str)
    (hl : lastOKb d = true) :
    processLine st ("disk ".data ++ d) = some (st.1, st.2 ++ [d]) := by
  rw [processLine_entry st _ "disk".data d (lineEntry?_diskline d hl), if_pos rfl]

theorem fold_diskLines : ∀ (ds : List Str) (st : Config × List Str),
    (∀ d ∈ ds, lastOKb d = true) →
    List.foldlM processLine st (ds.map (fun d => "disk ".data ++ d))
      = some (st.1, st.2 ++ ds) := by
  intro ds
  induction ds with
  | nil => intro st _; simp
  | cons d ds' ih =>
    intro st h
    simp only [List.map_cons, List.foldlM_cons]
    rw [processLine_diskline st d (h d (List.mem_cons_self d ds'))]
    show List.foldlM processLine (st.1, st.2 ++ [d]) _ = _
    rw [ih (st.1, st.2 ++ [d]) (fun x hx => h x (List.mem_cons_of_mem d hx))]
    simp

/-! ## Splitting the saved text back into lines -/

theorem splitLinesAux_line (l : Str) (rest : Str) (h : lineClean l = true) :
    splitLinesAux false (l ++ '\n' :: rest) = l :: splitLinesAux false rest := by
  induction l with
  | nil => simp [splitLinesAux]
  | cons c l' ih =>
    simp only [lineClean, List.all_cons, Bool.and_eq_true, Bool.not_eq_true',
      decide_eq_false_iff_not] at h
    obtain ⟨⟨hc1, hc2⟩, hcl⟩ := h
    have ih' := ih (by simpa [lineClean] using hcl)
    have step : splitLinesAux false (c :: (l' ++ '\n' :: rest))
        = if c = '\n' then [] :: splitLinesAux false (l' ++ '\n' :: rest)
          else if c = '\r' then [] :: splitLinesAux true (l' ++ '\n' :: rest)
          else match splitLinesAux false (l' ++ '\n' :: rest) with
            | [] => [[c]]
            | l :: ls => (c :: l) :: ls := rfl
    rw [List.cons_append, step, if_neg hc1, if_neg hc2, ih']

theorem pySplitLines_join (ls : List Str) (h : ∀ l ∈ ls, lineClean l = true) :
    pySplitLines (joinLines ls) = ls := by
  unfold pySplitLines
  induction ls with
  | nil => rfl
  | cons l ls' ih =>
    show splitLinesAux false (l ++ '\n' :: joinLines ls') = l :: ls'
    rw [splitLinesAux_line l _ (h l (List.mem_cons_self l ls'))]
    exact congrArg (l :: ·) (ih (fun x hx => h x (List.mem_cons_of_mem l hx)))

/-! ## The fold and duplicate scalar keys -/

theorem lastScalarValue_cons_none (l : Str) (k : Str) (ls : List Str)
    (h : lineEntry? l = none) :
    lastScalarValue (l :: ls) k = lastScalarValue ls k := by
  unfold lastScalarValue
  rw [List.filterMap_cons]
  simp [h]

theorem lastScalarValue_cons_other (l k k2 v2 : Str) (ls : List Str)
    (h : lineEntry? l = some (k2, v2)) (hne : ¬ k2 = k) :
    lastScalarValue (l :: ls) k = lastScalarValue ls k := by
  unfold lastScalarValue
  rw [List.filterMap_cons]
  simp [h, hne]

theorem lastScalarValue_cons_self (l k v2 : Str) (ls : List Str)
    (h : lineEntry? l = some (k, v2)) :
    lastScalarValue (l :: ls) k
      = match lastScalarValue ls k with
        | some v => some v
        | none => some v2 := by
  unfold lastScalarValue
  rw [List.filterMap_cons]
  simp only [h, eq_self_iff_true, if_true]
  cases hfl : List.filterMap (fun l => match lineEntry? l with
      | some (k3, v) => if k3 = k then some v else none
      | none => none) ls with
  | nil => simp
  | cons a t =>
    rw [List.getLast?_cons_cons]
    cases hg : (a :: t).getLast? with
    | none => simp at hg
    | some x => simp

theorem fold_lookup (k : Str) (hk : ¬ k = "disk".data) :
    ∀ (lines : List Str) (st st' : Config × List Str),
    List.foldlM processLine st lines = some st' →
    lookupVal st'.1 k = lastWins (lastScalarValue lines k) (lookupVal st.1 k) := by
  intro lines
  induction lines with
  | nil =>
    intro st st' h
    simp only [List.foldlM_nil] at h
    cases h
    simp [lastScalarValue, lastWins]
  | cons l ls ih =>
    intro st st' h
    simp only [List.foldlM_cons] at h
    cases hpl : processLine st l with
    | none => rw [hpl] at h; cases h
    | some st1 =>
      rw [hpl] at h
      have h2 := ih st1 st' h
      cases he : lineEntry? l with
      | none =>
        rw [processLine_blank st l he] at hpl
        cases hpl
        rw [lastScalarValue_cons_none l k ls he]
        exact h2
      | some kv =>
        obtain ⟨k2, v2⟩ := kv
        rw [processLine_entry st l k2 v2 he] at hpl
        by_cases hk2 : k2 = "disk".data
        · rw [if_pos hk2] at hpl
          cases hpl
          have hne : ¬ k2 = k := fun hh => hk (hh ▸ hk2)
          rw [lastScalarValue_cons_other l k k2 v2 ls he hne]
          exact h2
        · rw [if_neg hk2] at hpl
          cases hw : inferValue v2 with
          | none => rw [hw] at hpl; cases hpl
          | some w =>
            rw [hw] at hpl
            simp only [Option.map_some'] at hpl
            cases hpl
            by_cases hkk : k2 = k
            · subst hkk
              rw [lastScalarValue_cons_self l k2 v2 ls he]
              cases hfl : lastScalarValue ls k2 with
              | none =>
                rw [hfl] at h2
                simp only [lastWins] at h2 ⊢
                rw [h2, lookupVal_insert_self, hw]
              | some v =>
                rw [hfl] at h2
                simp only [lastWins] at h2 ⊢
                exact h2
            · have hne : ¬ k = k2 := fun hh => hkk hh.symm
              rw [lastScalarValue_cons_other l k k2 v2 ls he hkk]
              rw [h2, lookupVal_insert_other st.1 k2 w k hne]

/-! ## Claim C5: missing file tolerance -/

/-- Claim C5: `parse` applied to a path that does not exist returns an
empty document — the mapping it returns has no entries (so its scalar part
is empty and the disk sequence read from it is empty) — and never raises.
The early return happens before `config['disks'] = disks`, so the returned
dict is literally `{}`; its disk sequence as consumed by `save`
(`config.get('disks', [])`) is empty. -/
theorem claim_C5 :
    parse none = some ([] : Config)
    ∧ disksOf [] = []
    ∧ lookupVal [] "disks".data = none := by
  exact ⟨rfl, rfl, rfl⟩

/-! ## Claim C7: parse never raises (code bug) -/

/-- Claim C7 (failing input): the claim says `parse` accepts any input file
content and never raises.  The code checks tokens with `str.isdigit`, which
accepts the superscript digit `'²'` (Numeric_Type=Digit), and then calls
`int('²')`, which raises `ValueError` — modelled by `parse` returning
`none`.  The rest of the conjunction shows the permissive behaviour the
claim describes does hold away from such tokens: blank lines are skipped, a
line with a single token gets the empty-string value, and parsing
terminates with a document. -/
theorem claim_C7_bug :
    parse (some "x ²\n".data) = none
    ∧ parse (some "\n\n x y z \n\nmalformed\n".data)
        = some [("x".data, .str "y z".data), ("malformed".data, .str []),
                ("disks".data, .list [])] := by
  exact ⟨by decide, by decide⟩

/-! ## Claim C4: type-inference precedence (code bug at non-decimal digits) -/

/-- Claim C4 (failing input): the claimed precedence — case-insensitive
`true`/`false` to bool, decimal-digit tokens to int, float-parseable tokens
to float, anything else stays a string — holds on every ASCII token, but
the final "anything else stays a string" clause is broken by the code for
tokens like `'³'`: `str.isdigit` accepts it, `int()` then raises
`ValueError` (modelled as `none`) instead of leaving the string.  The other
conjuncts evaluate the code on the claim's own examples. -/
theorem claim_C4_bug :
    inferValue "³".data = none
    ∧ inferValue "TRUE".data = some (.bool true)
    ∧ inferValue "True".data = some (.bool true)
    ∧ inferValue "true".data = some (.bool true)
    ∧ inferValue "FaLsE".data = some (.bool false)
    ∧ inferValue "128".data = some (.int 128)
    ∧ inferValue "1.5".data = some (.float (.finite 15 (-1)))
    ∧ inferValue "/dev/dsp".data = some (.str "/dev/dsp".data) := by
  refine ⟨by decide, by decide, by decide, by decide, by decide, by decide,
    by decide, by decide⟩

/-! ## Claim C3: the line split (corrected) -/

/-- Claim C3 (counterexample): the claim says every non-blank line splits
at the first *whitespace run*.  The code splits at the first *space
character* only (`line.split(' ', 1)`).  On the line `a<TAB>b` the claimed
split gives key `a` and value `b`, while the code keeps the whole line as
the key (with empty value); `parse` of that single line indeed produces
the key `a<TAB>b`. -/
theorem claim_C3_counterexample :
    keyValueOf "a\tb".data ≠ specSplitWS "a\tb".data
    ∧ parseLines ["a\tb".data]
        = some [("a\tb".data, .str []), ("disks".data, .list [])] := by
  exact ⟨by decide, by decide⟩

/-! ## Parse-level helpers for the claims -/

theorem parseLines_some {lines : List Str} {cfg : Config}
    (h : parseLines lines = some cfg) :
    ∃ st, List.foldlM processLine ([], []) lines = some st
      ∧ cfg = insertKV st.1 "disks".data (.list st.2) := by
  unfold parseLines at h
  cases hf : List.foldlM processLine ([], []) lines with
  | none => rw [hf] at h; cases h
  | some st =>
    rw [hf] at h
    have h' : some (insertKV st.1 "disks".data (.list st.2)) = some cfg := h
    injection h' with h''
    exact ⟨st, rfl, h''.symm⟩

theorem parseLines_disks_lookup : ∀ (lines : List Str) (cfg : Config),
    parseLines lines = some cfg →
    lookupVal cfg "disks".data = some (.list (diskValuesOf lines)) := by
  intro lines cfg h
  obtain ⟨st, hf, rfl⟩ := parseLines_some h
  rw [lookupVal_insert_self]
  have hd := fold_disks lines ([], []) st hf
  rw [hd]
  simp

/-! ## Claim C10: the reserved mapping key for the disk sequence -/

/-- Claim C10: for every existing input file, the parsed document maps the
reserved field name `disks` to exactly the list of values of the file's
`disk` lines in file order; a scalar line whose key is literally `disks` is
silently discarded, because `config['disks'] = disks` runs after the loop
and overwrites it. -/
theorem claim_C10 : ∀ (lines : List Str) (cfg : Config),
    parseLines lines = some cfg →
    lookupVal cfg "disks".data = some (.list (diskValuesOf lines)) :=
  parseLines_disks_lookup

/-- Claim C10 witness: a file whose first line is the scalar `disks haha`
and whose second is `disk A` parses to a document where `disks` holds
exactly `[A]` — the scalar is gone. -/
theorem claim_C10_witness :
    lookupVal [("disks".data, Value.list ["A".data])] "disks".data
      = some (.list (diskValuesOf ["disks haha".data, "disk A".data])) :=
  claim_C10 ["disks haha".data, "disk A".data] _ rfl

/-! ## Claim C8: duplicate scalar keys, last occurrence wins -/

/-- Claim C8: whenever parse succeeds on a file, the mapping value of every
non-disk key is the inferred value of the *last* non-blank line carrying
that key (last occurrence wins). -/
theorem claim_C8 : ∀ (lines : List Str) (cfg : Config) (k v : Str),
    parseLines lines = some cfg → ¬ k = "disk".data → ¬ k = "disks".data →
    lastScalarValue lines k = some v →
    lookupVal cfg k = inferValue v := by
  intro lines cfg k v h hk hks hl
  obtain ⟨st, hf, rfl⟩ := parseLines_some h
  rw [lookupVal_insert_other _ _ _ _ hks]
  rw [fold_lookup k hk lines ([], []) st hf, hl]
  rfl

/-- Claim C8 witness: the file `jit true` then `jit false` parses to
`jit = false`. -/
theorem claim_C8_witness :
    lookupVal [("jit".data, Value.bool false), ("disks".data, Value.list [])]
        "jit".data
      = inferValue "false".data :=
  claim_C8 ["jit true".data, "jit false".data] _ "jit".data "false".data
    rfl (by decide) (by decide) rfl

/-! ## Claim C2: the disk sequence (corrected) -/

/-- Claim C2 (counterexample): the claim's round trip fails for a disk
sequence whose entry carries trailing whitespace: saving the one-entry
sequence `["A "]` writes the line `disk A `, which `parse` strips, so the
recovered sequence is `["A"]`, not `["A "]`. -/
theorem claim_C2_counterexample :
    save [("disks".data, Value.list ["A ".data])] = "disk A \n".data
    ∧ parse (some (save [("disks".data, Value.list ["A ".data])]))
        = some [("disks".data, Value.list ["A".data])]
    ∧ ¬ ("A ".data : Str) = "A".data := by
  exact ⟨by decide, by decide, by decide⟩

/-- Claim C2 (amended): (1) `parse` appends the value of every line whose
key is the reserved token `disk` to the disk sequence in file order,
without type inference — the `disks` entry of the result is exactly the
list of `disk`-line values; (2) for every disk sequence whose entries
contain no newline or carriage return and do not end in Python whitespace
(all sequences obtained from parsing are such), saving a document carrying
that sequence and re-parsing the written file yields exactly that
sequence. -/
theorem claim_C2 :
    (∀ (lines : List Str) (cfg : Config), parseLines lines = some cfg →
        lookupVal cfg "disks".data = some (.list (diskValuesOf lines)))
    ∧ ∀ ds : List Str,
        (∀ d ∈ ds, lineClean d = true ∧ lastOKb d = true) →
        parse (some (save [("disks".data, Value.list ds)]))
          = some [("disks".data, Value.list ds)] := by
  constructor
  · exact parseLines_disks_lookup
  · intro ds h
    have hsl : saveLines [("disks".data, Value.list ds)]
        = ds.map (fun d => "disk ".data ++ d) := by
      unfold saveLines
      rw [show disksOf [("disks".data, Value.list ds)] = ds from rfl]
      simp [List.filter]
    have hclean : ∀ l ∈ ds.map (fun d => "disk ".data ++ d), lineClean l = true := by
      intro l hl
      obtain ⟨d, hd, rfl⟩ := List.mem_map.1 hl
      rw [lineClean_append, (h d hd).1]
      decide
    show parseLines (pySplitLines (joinLines (saveLines [("disks".data, Value.list ds)])))
        = some [("disks".data, Value.list ds)]
    rw [hsl, pySplitLines_join _ hclean]
    unfold parseLines
    rw [fold_diskLines ds ([], []) (fun d hd => (h d hd).2)]
    show some (insertKV [] "disks".data (Value.list ([] ++ ds)))
        = some [("disks".data, Value.list ds)]
    simp [insertKV]

/-- Claim C2 witness: the reordered sequence `[C, A, B]` of the claim's
example round-trips exactly. -/
theorem claim_C2_witness :
    parse (some (save [("disks".data,
        Value.list ["C".data, "A".data, "B".data])]))
      = some [("disks".data, Value.list ["C".data, "A".data, "B".data])] :=
  claim_C2.2 ["C".data, "A".data, "B".data] (by decide)

/-- Claim C3 (amended): each non-blank line is split at the first *space
character* (not whitespace run): the key is the maximal space-free prefix
and the value is everything after that first space — so the value may
contain further spaces and retains any whitespace directly after the first
space, and tabs are not split points; with no space present the value is
the empty string.  The claim's own example still holds: `extfs /Users/me/My
Files` parses `extfs` to `/Users/me/My Files`. -/
theorem claim_C3 :
    (∀ s : Str, keyValueOf s
      = (s.takeWhile (fun c => !decide (c = ' ')),
         (s.dropWhile (fun c => !decide (c = ' '))).tail))
    ∧ parseLines ["extfs /Users/me/My Files".data]
        = some [("extfs".data, .str "/Users/me/My Files".data),
                ("disks".data, .list [])] :=
  ⟨keyValueOf_takeWhile, by decide⟩

/-! ## Claim C1: the parse/save round trip (corrected) -/

/-- Claim C1 (counterexample): the round-trip equality fails on NaN with no
ambiguous string value present.  The file `snd nan` parses to a document
whose only scalar is the float NaN; saving writes back exactly `snd nan`
and re-parsing returns a structurally identical document — but under
Python `==` (the meaning of document equality for dicts of scalars, and
what the fresh float object of the reparse is compared with) the two
documents are *not* equal, because NaN compares unequal to itself. -/
theorem claim_C1_counterexample :
    parse (some "snd nan\n".data)
      = some [("snd".data, Value.float .nan), ("disks".data, Value.list [])]
    ∧ save [("snd".data, Value.float .nan), ("disks".data, Value.list [])]
        = "snd nan\n".data
    ∧ parse (some (save [("snd".data, Value.float .nan),
          ("disks".data, Value.list [])]))
        = some [("snd".data, Value.float .nan), ("disks".data, Value.list [])]
    ∧ pyDictEq [("snd".data, Value.float .nan), ("disks".data, Value.list [])]
        [("snd".data, Value.float .nan), ("disks".data, Value.list [])] = false := by
  exact ⟨by decide, by decide, by decide, by decide⟩

/-! ## Character classes -/

theorem isDig_toNat {c : Char} (h : isDig c = true) : 48 ≤ c.toNat ∧ c.toNat ≤ 57 := by
  unfold isDig at h
  simp only [Bool.and_eq_true, decide_eq_true_eq] at h
  exact h

theorem ne_of_isDig {c d : Char} (h : isDig c = true)
    (hd : d.toNat < 48 ∨ 57 < d.toNat) : ¬ c = d := by
  intro he
  subst he
  have := isDig_toNat h
  omega

theorem toLower_digit {c : Char} (h : isDig c = true) : c.toLower = c := by
  have hb := isDig_toNat h
  unfold Char.toLower
  rw [if_neg]
  intro hc
  omega

theorem isPySpace_of_isDig {c : Char} (h : isDig c = true) : isPySpace c = false := by
  have h1 := ne_of_isDig h (Or.inl (show (' ').toNat < 48 by decide))
  have h2 := ne_of_isDig h (Or.inl (show ('\t').toNat < 48 by decide))
  have h3 := ne_of_isDig h (Or.inl (show ('\n').toNat < 48 by decide))
  have h4 := ne_of_isDig h (Or.inl (show ('\r').toNat < 48 by decide))
  have h5 := ne_of_isDig h (Or.inl (show ('\x0b').toNat < 48 by decide))
  have h6 := ne_of_isDig h (Or.inl (show ('\x0c').toNat < 48 by decide))
  simp [isPySpace, h1, h2, h3, h4, h5, h6]

theorem lineClean_of_isDig {c : Char} (h : isDig c = true) :
    (!decide (c = '\n') && !decide (c = '\r')) = true := by
  have h3 := ne_of_isDig h (Or.inl (show ('\n').toNat < 48 by decide))
  have h4 := ne_of_isDig h (Or.inl (show ('\r').toNat < 48 by decide))
  simp [h3, h4]

theorem head?_pyLower (s : Str) : (pyLower s).head? = s.head?.map Char.toLower := by
  cases s <;> simp [pyLower]

theorem pyLower_ne_of_head {s L : Str} {c0 cL : Char} (h : s.head? = some c0)
    (hL : L.head? = some cL) (hne : ¬ c0.toLower = cL) : ¬ pyLower s = L := by
  intro he
  have h2 := congrArg List.head? he
  rw [head?_pyLower, h, hL] at h2
  simp only [Option.map_some', Option.some_inj] at h2
  exact hne h2

theorem pyIsDigit_false_of_mem {s : Str} {c : Char} (hc : c ∈ s)
    (h : charPyDigit c = false) : pyIsDigit s = false := by
  cases hd : pyIsDigit s with
  | false => rfl
  | true =>
    unfold pyIsDigit at hd
    rw [Bool.and_eq_true] at hd
    obtain ⟨-, hall⟩ := hd
    rw [List.all_eq_true] at hall
    rw [hall c hc] at h
    cases h

theorem lastOKb_of_getLast? {s : Str} {c : Char} (h : s.getLast? = some c)
    (hc : isPySpace c = false) : lastOKb s = true := by
  unfold lastOKb
  rw [← List.head?_reverse] at h
  cases hr : s.reverse with
  | nil => rw [hr] at h; cases h
  | cons c' t =>
    rw [hr] at h
    simp only [List.head?_cons, Option.some_inj] at h
    subst h
    simp [headOKb, hc]

theorem headOKb_of_head? {s : Str} {c : Char} (h : s.head? = some c)
    (hc : isPySpace c = false) : headOKb s = true := by
  cases s with
  | nil => cases h
  | cons c' t =>
    simp only [List.head?_cons, Option.some_inj] at h
    subst h
    simp [headOKb, hc]

/-! ## Decimal rendering of naturals -/

theorem natOfStr_from (t : Str) : ∀ a : ℕ,
    t.foldl (fun a c => 10 * a + (c.toNat - 48)) a
      = a * 10 ^ t.length + natOfStr t := by
  induction t with
  | nil => intro a; simp [natOfStr]
  | cons c t ih =>
    intro a
    show t.foldl _ (10 * a + (c.toNat - 48)) = _
    rw [ih (10 * a + (c.toNat - 48))]
    have hc : natOfStr (c :: t) = (c.toNat - 48) * 10 ^ t.length + natOfStr t := by
      show t.foldl _ (10 * 0 + (c.toNat - 48)) = _
      rw [ih (10 * 0 + (c.toNat - 48))]
      ring_nf
    rw [hc, List.length_cons]
    ring

theorem natOfStr_append (a b : Str) :
    natOfStr (a ++ b) = natOfStr a * 10 ^ b.length + natOfStr b := by
  unfold natOfStr
  rw [List.foldl_append, natOfStr_from]
  rfl

theorem natOfStr_replicate_zero (n : ℕ) :
    natOfStr (List.replicate n '0') = 0 := by
  induction n with
  | zero => rfl
  | succ n ih =>
    rw [List.replicate_succ]
    show List.foldl _ (10 * 0 + ('0'.toNat - 48)) _ = 0
    rw [natOfStr_from]
    simpa using ih

theorem natOfStr_singleton (c : Char) : natOfStr [c] = c.toNat - 48 := by
  show 10 * 0 + (c.toNat - 48) = c.toNat - 48
  omega

theorem digitChar_toNat {d : ℕ} (h : d < 10) : (digitChar d).toNat = 48 + d := by
  interval_cases d <;> decide

theorem isDig_digitChar {d : ℕ} (h : d < 10) : isDig (digitChar d) = true := by
  interval_cases d <;> decide

theorem natToStrAux_spec : ∀ (fuel n : ℕ), n ≤ fuel →
    natOfStr (natToStrAux fuel n) = n
    ∧ (∀ c ∈ natToStrAux fuel n, isDig c = true)
    ∧ (n ≠ 0 → natToStrAux fuel n ≠ []) := by
  intro fuel
  induction fuel with
  | zero =>
    intro n hn
    have : n = 0 := Nat.le_zero.1 hn
    subst this
    refine ⟨rfl, ?_, ?_⟩
    · intro c hc
      cases hc
    · intro h
      exact absurd rfl h
  | succ fuel ih =>
    intro n hn
    by_cases h0 : n = 0
    · subst h0
      refine ⟨rfl, ?_, ?_⟩
      · intro c hc
        rw [show natToStrAux (fuel + 1) 0 = [] from rfl] at hc
        cases hc
      · intro h
        exact absurd rfl h
    · have hdiv : n / 10 ≤ fuel := by
        have := Nat.div_lt_self (Nat.pos_of_ne_zero h0) (by norm_num : (1:ℕ) < 10)
        omega
      obtain ⟨ihv, ihd, -⟩ := ih (n / 10) hdiv
      have hmod : n % 10 < 10 := Nat.mod_lt n (by norm_num)
      refine ⟨?_, ?_, ?_⟩
      · simp only [natToStrAux, if_neg h0]
        rw [natOfStr_append, ihv]
        have hsing : natOfStr [digitChar (n % 10)] = n % 10 := by
          rw [natOfStr_singleton, digitChar_toNat hmod]
          omega
        rw [hsing]
        simp only [List.length_singleton, pow_one]
        omega
      · simp only [natToStrAux, if_neg h0]
        intro c hc
        rcases List.mem_append.1 hc with h1 | h1
        · exact ihd c h1
        · rw [List.mem_singleton] at h1
          subst h1
          exact isDig_digitChar hmod
      · intro _
        simp only [natToStrAux, if_neg h0]
        intro hc
        have hlen := congrArg List.length hc
        simp at hlen

theorem natToStr_spec (n : ℕ) :
    natOfStr (natToStr n) = n
    ∧ (∀ c ∈ natToStr n, isDig c = true)
    ∧ natToStr n ≠ [] := by
  by_cases h0 : n = 0
  · subst h0
    refine ⟨rfl, ?_, by decide⟩
    intro c hc
    rw [show natToStr 0 = ['0'] from rfl, List.mem_singleton] at hc
    subst hc
    decide
  · obtain ⟨hv, hd, hne⟩ := natToStrAux_spec n n (le_refl n)
    rw [show natToStr n = natToStrAux n n from by simp [natToStr, h0]]
    exact ⟨hv, hd, hne h0⟩

/-! ## Scanner stop lemmas -/

theorem scanDUAux_stop : ∀ (ds rest : Str), (∀ c ∈ ds, isDig c = true) →
    (rest = [] ∨ ∃ c r, rest = c :: r ∧ isDig c = false ∧ ¬ c = '_') →
    scanDUAux false (ds ++ rest) = (ds, rest) := by
  intro ds
  induction ds with
  | nil =>
    intro rest _ hrest
    rcases hrest with rfl | ⟨c, r, rfl, hc, hu⟩
    · rfl
    · show scanDUAux false (c :: r) = ([], c :: r)
      simp only [scanDUAux, hc]
      simp [hu]
  | cons d ds' ih =>
    intro rest hds hrest
    have hd : isDig d = true := hds d (List.mem_cons_self d ds')
    show scanDUAux false (d :: (ds' ++ rest)) = (d :: ds', rest)
    simp only [scanDUAux, hd,
      ih rest (fun c hc => hds c (List.mem_cons_of_mem d hc)) hrest]
    simp

theorem scanDU_stop : ∀ (ds rest : Str), (∀ c ∈ ds, isDig c = true) →
    (rest = [] ∨ ∃ c r, rest = c :: r ∧ isDig c = false ∧ ¬ c = '_') →
    scanDU (ds ++ rest) = (ds, rest) := by
  intro ds rest hds hrest
  cases ds with
  | nil =>
    rcases hrest with rfl | ⟨c, r, rfl, hc, hu⟩
    · rfl
    · show scanDU (c :: r) = ([], c :: r)
      simp only [scanDU, hc]
      simp
  | cons d ds' =>
    have hd : isDig d = true := hds d (List.mem_cons_self d ds')
    show scanDU (d :: (ds' ++ rest)) = (d :: ds', rest)
    simp only [scanDU, hd,
      scanDUAux_stop ds' rest (fun c hc => hds c (List.mem_cons_of_mem d hc)) hrest]
    simp

/-! ## Normal forms of finite float values -/

theorem stripTens_of_nmod (fuel : ℕ) (m e : ℤ) (h : ¬ m % 10 = 0) :
    stripTens fuel m e = (m, e) := by
  cases fuel with
  | zero => rfl
  | succ fuel =>
    simp only [stripTens]
    rw [if_neg]
    intro hc
    exact h hc.1

theorem stripTens_pow : ∀ (j fuel : ℕ) (m e : ℤ), ¬ m % 10 = 0 → ¬ m = 0 →
    j ≤ fuel → stripTens fuel (m * 10 ^ j) e = (m, e + j) := by
  intro j
  induction j with
  | zero =>
    intro fuel m e hmod _ _
    simpa using stripTens_of_nmod fuel m e hmod
  | succ j ih =>
    intro fuel m e hmod hm hfuel
    obtain ⟨f, rfl⟩ : ∃ f, fuel = f + 1 := ⟨fuel - 1, by omega⟩
    have hdvd : (10 : ℤ) ∣ m * 10 ^ (j + 1) := ⟨m * 10 ^ j, by ring⟩
    have hcond : (m * 10 ^ (j + 1)) % 10 = 0 := Int.emod_eq_zero_of_dvd hdvd
    have hne : ¬ m * 10 ^ (j + 1) = 0 := by
      intro hz
      rcases mul_eq_zero.1 hz with h1 | h1
      · exact hm h1
      · exact absurd h1 (by positivity)
    simp only [stripTens]
    rw [if_pos ⟨hcond, hne⟩]
    have hquot : m * 10 ^ (j + 1) / 10 = m * 10 ^ j := by
      rw [pow_succ, ← mul_assoc]
      exact Int.mul_ediv_cancel _ (by norm_num)
    rw [hquot, ih f m (e + 1) hmod hm (by omega)]
    refine congrArg (fun t => (m, t)) ?_
    push_cast
    ring

theorem stripTens_norm : ∀ (fuel : ℕ) (m e : ℤ), ¬ m = 0 → m.natAbs ≤ fuel →
    ¬ (stripTens fuel m e).1 % 10 = 0 ∧ ¬ (stripTens fuel m e).1 = 0 := by
  intro fuel
  induction fuel with
  | zero =>
    intro m e hm hf
    exact absurd (Int.natAbs_eq_zero.1 (Nat.le_zero.1 hf)) hm
  | succ fuel ih =>
    intro m e hm hf
    by_cases hc : m % 10 = 0 ∧ m ≠ 0
    · obtain ⟨q, hq⟩ : (10 : ℤ) ∣ m := Int.dvd_of_emod_eq_zero hc.1
      have hq0 : ¬ q = 0 := by
        intro h0
        exact hm (by rw [hq, h0, mul_zero])
      have hdiv : m / 10 = q := by
        rw [hq]
        exact Int.mul_ediv_cancel_left q (by norm_num)
      have habs : m.natAbs = 10 * q.natAbs := by
        rw [hq, Int.natAbs_mul]
        rfl
      have hfq : q.natAbs ≤ fuel := by
        have h1 : 1 ≤ q.natAbs := Nat.one_le_iff_ne_zero.2 (by simpa using hq0)
        omega
      simp only [stripTens]
      rw [if_pos hc, hdiv]
      exact ih q (e + 1) hq0 hfq
    · simp only [stripTens]
      rw [if_neg hc]
      refine ⟨?_, hm⟩
      intro hmod
      exact hc ⟨hmod, hm⟩

theorem normFloat_norm (m e : ℤ) :
    IsNormFloat (normFloat m e).1 (normFloat m e).2 := by
  unfold normFloat
  by_cases hm : m = 0
  · rw [if_pos hm]
    exact Or.inl ⟨rfl, rfl⟩
  · rw [if_neg hm]
    exact Or.inr (stripTens_norm m.natAbs m e hm (le_refl _)).1

theorem normFloat_id (m e : ℤ) (hmod : ¬ m % 10 = 0) (hm : ¬ m = 0) :
    normFloat m e = (m, e) := by
  unfold normFloat
  rw [if_neg hm]
  exact stripTens_of_nmod _ m e hmod

theorem normFloat_mul_pow (m : ℤ) (j : ℕ) (e' : ℤ) (hmod : ¬ m % 10 = 0)
    (hm : ¬ m = 0) : normFloat (m * 10 ^ j) e' = (m, e' + j) := by
  unfold normFloat
  have hne : ¬ m * 10 ^ j = 0 := by
    intro hz
    rcases mul_eq_zero.1 hz with h1 | h1
    · exact hm h1
    · exact absurd h1 (by positivity)
  rw [if_neg hne]
  apply stripTens_pow j _ m e' hmod hm
  have h1 : 1 ≤ m.natAbs := Nat.one_le_iff_ne_zero.2 (by simpa using hm)
  have h2 : j < 2 ^ j := Nat.lt_two_pow j
  have h3 : (2 : ℕ) ^ j ≤ 10 ^ j := Nat.pow_le_pow_left (by norm_num) j
  calc j ≤ 10 ^ j := by omega
    _ = 1 * 10 ^ j := (one_mul _).symm
    _ ≤ m.natAbs * 10 ^ j := Nat.mul_le_mul_right _ h1
    _ = (m * 10 ^ j).natAbs := by
        rw [Int.natAbs_mul]
        norm_num [Int.natAbs_pow]

/-! ## Evaluating parseFloat on rendered decimal strings -/

theorem getLast?_append_right (l1 l2 : Str) (h : l2 ≠ []) :
    (l1 ++ l2).getLast? = l2.getLast? := by
  rw [← List.head?_reverse, ← List.head?_reverse, List.reverse_append]
  cases h2 : l2.reverse with
  | nil => exact absurd (by simpa using h2) h
  | cons c t => simp [h2]

theorem getLast?_cons_of_ne (c : Char) (s : Str) (h : s ≠ []) :
    (c :: s).getLast? = s.getLast? := by
  cases s with
  | nil => exact absurd rfl h
  | cons c' t => exact List.getLast?_cons_cons

theorem mem_of_getLast?_eq {s : Str} {c : Char} (h : s.getLast? = some c) :
    c ∈ s := by
  rw [← List.head?_reverse] at h
  cases hr : s.reverse with
  | nil => rw [hr] at h; cases h
  | cons c' t =>
    rw [hr] at h
    simp only [List.head?_cons, Option.some_inj] at h
    have hmem : c' ∈ s.reverse := by rw [hr]; exact List.mem_cons_self c' t
    rw [← h]
    simpa using hmem

theorem readSign_neg (body : Str) : readSign ('-' :: body) = (-1, body) := by
  simp [readSign]

theorem readSign_of_digit {body : Str} {c0 : Char} (h : body.head? = some c0)
    (hc : isDig c0 = true) : readSign body = (1, body) := by
  cases body with
  | nil => cases h
  | cons d r =>
    simp only [List.head?_cons, Option.some_inj] at h
    subst h
    have h1 := ne_of_isDig hc (Or.inl (show ('+').toNat < 48 by decide))
    have h2 := ne_of_isDig hc (Or.inl (show ('-').toNat < 48 by decide))
    simp [readSign, h1, h2]

theorem parseFloat_eval (s body : Str) (sg : ℤ)
    (hsplit : readSign (pyStrip s) = (sg, body)) (c0 : Char)
    (hhead : body.head? = some c0) (hc0 : isDig c0 = true) :
    parseFloat s
      = (parseNumBody body).map (fun p =>
          match normFloat (sg * p.1) p.2 with
          | (m', e') => PyFloat.finite m' e') := by
  have hlow := toLower_digit hc0
  have hinf : ¬ pyLower body = "inf".data :=
    pyLower_ne_of_head hhead (show "inf".data.head? = some 'i' from rfl)
      (by rw [hlow]; exact ne_of_isDig hc0 (Or.inr (show 57 < ('i').toNat by decide)))
  have hinfy : ¬ pyLower body = "infinity".data :=
    pyLower_ne_of_head hhead (show "infinity".data.head? = some 'i' from rfl)
      (by rw [hlow]; exact ne_of_isDig hc0 (Or.inr (show 57 < ('i').toNat by decide)))
  have hnan : ¬ pyLower body = "nan".data :=
    pyLower_ne_of_head hhead (show "nan".data.head? = some 'n' from rfl)
      (by rw [hlow]; exact ne_of_isDig hc0 (Or.inr (show 57 < ('n').toNat by decide)))
  unfold parseFloat
  rw [hsplit]
  show (if pyLower body = "inf".data ∨ pyLower body = "infinity".data
      then some (PyFloat.inf (sg < 0))
      else if pyLower body = "nan".data then some PyFloat.nan
      else (parseNumBody body).map (fun p =>
        match normFloat (sg * p.1) p.2 with
        | (m', e') => PyFloat.finite m' e')) = _
  rw [if_neg (not_or.2 ⟨hinf, hinfy⟩), if_neg hnan]

theorem parseNumBody_point (I F : Str) (hI : ∀ c ∈ I, isDig c = true)
    (hIne : I ≠ []) (hF : ∀ c ∈ F, isDig c = true) :
    parseNumBody (I ++ '.' :: F)
      = some ((natOfStr I * 10 ^ F.length + natOfStr F : ℤ),
          0 - (F.length : ℤ)) := by
  unfold parseNumBody
  rw [scanDU_stop I ('.' :: F) hI
    (Or.inr ⟨'.', F, rfl, by decide, by decide⟩)]
  show (if ('.' : Char) = '.' then _ else _) = _
  rw [if_pos rfl]
  have hsF : scanDU F = (F, []) := by
    have := scanDU_stop F [] hF (Or.inl rfl)
    simpa using this
  rw [hsF]
  have hIe : I.isEmpty = false := by
    cases I with
    | nil => exact absurd rfl hIne
    | cons a b => rfl
  show (if (I.isEmpty && F.isEmpty) = true then _ else _) = _
  rw [if_neg (by rw [hIe]; simp)]
  rfl

theorem normFloat_match_eq {A E m e : ℤ} (h : normFloat A E = (m, e)) :
    (match normFloat A E with | (m', e') => PyFloat.finite m' e')
      = PyFloat.finite m e := by
  rw [h]

theorem parseFloat_floatRepr_nonneg (m e : ℤ) (hm : ¬ m = 0)
    (hmod : ¬ m % 10 = 0) (he : 0 ≤ e) :
    parseFloat (floatRepr (.finite m e)) = some (.finite m e) := by
  obtain ⟨hDval, hDdig, hDne⟩ := natToStr_spec (m.natAbs * 10 ^ e.toNat)
  set D := natToStr (m.natAbs * 10 ^ e.toNat) with hD
  obtain ⟨d0, t0, hD0⟩ : ∃ d0 t0, D = d0 :: t0 := by
    cases hDD : D with
    | nil => exact absurd hDD hDne
    | cons a b => exact ⟨a, b, rfl⟩
  have hhead : (D ++ ".0".data).head? = some d0 := by rw [hD0]; rfl
  have hd0 : isDig d0 = true := hDdig d0 (by rw [hD0]; exact List.mem_cons_self _ _)
  have hlast : (D ++ ".0".data).getLast? = some '0' := by
    rw [getLast?_append_right D ".0".data (by decide)]
    rfl
  have hbody_ne : D ++ ".0".data ≠ [] := by rw [hD0]; simp
  have hrepr : floatRepr (.finite m e)
      = if m < 0 then '-' :: (D ++ ".0".data) else D ++ ".0".data := by
    simp only [floatRepr]
    rw [if_pos he, hD]
  have hstrip : pyStrip (floatRepr (.finite m e)) = floatRepr (.finite m e) := by
    apply pyStrip_noop
    · rw [hrepr]
      by_cases hneg : m < 0
      · rw [if_pos hneg]
        rfl
      · rw [if_neg hneg]
        exact headOKb_of_head? hhead (isPySpace_of_isDig hd0)
    · rw [hrepr]
      by_cases hneg : m < 0
      · rw [if_pos hneg]
        apply lastOKb_of_getLast? (c := '0')
        · rw [getLast?_cons_of_ne _ _ hbody_ne]
          exact hlast
        · decide
      · rw [if_neg hneg]
        exact lastOKb_of_getLast? hlast (by decide)
  have hsg : readSign (pyStrip (floatRepr (.finite m e)))
      = ((if m < 0 then -1 else 1 : ℤ), D ++ ".0".data) := by
    rw [hstrip, hrepr]
    by_cases hneg : m < 0
    · rw [if_pos hneg, if_pos hneg, readSign_neg]
    · rw [if_neg hneg, if_neg hneg]
      exact readSign_of_digit hhead hd0
  rw [parseFloat_eval _ _ _ hsg d0 hhead hd0]
  rw [show (".0".data : Str) = '.' :: ['0'] from rfl]
  rw [parseNumBody_point D ['0'] hDdig hDne
    (by intro c hc; rw [List.mem_singleton] at hc; subst hc; decide)]
  simp only [Option.map_some']
  refine congrArg some (normFloat_match_eq ?_)
  have h0 : natOfStr ['0'] = 0 := by
    rw [natOfStr_singleton]
    decide
  convert normFloat_mul_pow m (e.toNat + 1)
      (0 - ((['0'] : Str).length : ℤ)) hmod hm using 2
  · rw [hDval, h0]
    push_cast
    simp only [List.length_singleton, pow_one]
    by_cases hneg : m < 0
    · rw [if_pos hneg, abs_of_neg hneg]
      ring
    · rw [if_neg hneg, abs_of_nonneg (le_of_not_lt hneg)]
      ring
  · have := Int.toNat_of_nonneg he
    simp only [List.length_singleton]
    push_cast
    omega

theorem parseFloat_floatRepr_neg (m e : ℤ) (hm : ¬ m = 0)
    (hmod : ¬ m % 10 = 0) (he : ¬ 0 ≤ e) :
    parseFloat (floatRepr (.finite m e)) = some (.finite m e) := by
  obtain ⟨hDval, hDdig, hDne⟩ := natToStr_spec m.natAbs
  set k := (-e).toNat with hk
  have hk1 : 1 ≤ k := by omega
  set D := natToStr m.natAbs with hD
  set P : Str := List.replicate (k + 1 - D.length) '0' ++ D with hP
  have hPdig : ∀ c ∈ P, isDig c = true := by
    intro c hc
    rcases List.mem_append.1 hc with h1 | h1
    · rw [List.eq_of_mem_replicate h1]; decide
    · exact hDdig c h1
  have hDlen : 1 ≤ D.length := List.length_pos.2 hDne
  have hPlen : k + 1 ≤ P.length := by
    rw [hP, List.length_append, List.length_replicate]
    omega
  set ip := P.take (P.length - k) with hip
  set fp := P.drop (P.length - k) with hfp
  have hiplen : ip.length = P.length - k := by
    rw [hip, List.length_take]
    omega
  have hfplen : fp.length = k := by
    rw [hfp, List.length_drop]
    omega
  have hipne : ip ≠ [] := by
    intro h0
    have hl := congrArg List.length h0
    rw [hiplen] at hl
    simp at hl
    omega
  have hfpne : fp ≠ [] := by
    intro h0
    have hl := congrArg List.length h0
    rw [hfplen] at hl
    simp at hl
    omega
  have hipdig : ∀ c ∈ ip, isDig c = true := fun c hc => hPdig c (List.take_subset _ _ hc)
  have hfpdig : ∀ c ∈ fp, isDig c = true := fun c hc => hPdig c (List.drop_subset _ _ hc)
  have hipfp : ip ++ fp = P := List.take_append_drop _ P
  obtain ⟨i0, it, hip0⟩ : ∃ i0 it, ip = i0 :: it := by
    cases hi : ip with
    | nil => exact absurd hi hipne
    | cons a b => exact ⟨a, b, rfl⟩
  have hi0 : isDig i0 = true := hipdig i0 (by rw [hip0]; exact List.mem_cons_self _ _)
  have hhead : (ip ++ '.' :: fp).head? = some i0 := by rw [hip0]; rfl
  obtain ⟨cl, hcl⟩ : ∃ cl, fp.getLast? = some cl := by
    cases hg : fp.getLast? with
    | none => exact absurd (List.getLast?_eq_none_iff.1 hg) hfpne
    | some c => exact ⟨c, rfl⟩
  have hcldig : isDig cl = true := hfpdig cl (mem_of_getLast?_eq hcl)
  have hlast : (ip ++ '.' :: fp).getLast? = some cl := by
    rw [show (ip ++ '.' :: fp : Str) = (ip ++ ['.']) ++ fp from by simp]
    rw [getLast?_append_right _ _ hfpne]
    exact hcl
  have hbody_ne : ip ++ '.' :: fp ≠ [] := by rw [hip0]; simp
  have hrepr : floatRepr (.finite m e)
      = if m < 0 then '-' :: (ip ++ '.' :: fp) else ip ++ '.' :: fp := by
    simp only [floatRepr]
    rw [if_neg he]
  have hstrip : pyStrip (floatRepr (.finite m e)) = floatRepr (.finite m e) := by
    apply pyStrip_noop
    · rw [hrepr]
      by_cases hneg : m < 0
      · rw [if_pos hneg]
        rfl
      · rw [if_neg hneg]
        exact headOKb_of_head? hhead (isPySpace_of_isDig hi0)
    · rw [hrepr]
      by_cases hneg : m < 0
      · rw [if_pos hneg]
        apply lastOKb_of_getLast? (c := cl)
        · rw [getLast?_cons_of_ne _ _ hbody_ne]
          exact hlast
        · exact isPySpace_of_isDig hcldig
      · rw [if_neg hneg]
        exact lastOKb_of_getLast? hlast (isPySpace_of_isDig hcldig)
  have hsg : readSign (pyStrip (floatRepr (.finite m e)))
      = ((if m < 0 then -1 else 1 : ℤ), ip ++ '.' :: fp) := by
    rw [hstrip, hrepr]
    by_cases hneg : m < 0
    · rw [if_pos hneg, if_pos hneg, readSign_neg]
    · rw [if_neg hneg, if_neg hneg]
      exact readSign_of_digit hhead hi0
  rw [parseFloat_eval _ _ _ hsg i0 hhead hi0]
  rw [parseNumBody_point ip fp hipdig hipne hfpdig]
  simp only [Option.map_some']
  refine congrArg some (normFloat_match_eq ?_)
  have hmant : ((natOfStr ip : ℤ) * 10 ^ fp.length + (natOfStr fp : ℤ))
      = (m.natAbs : ℤ) := by
    have h1 : natOfStr ip * 10 ^ fp.length + natOfStr fp = natOfStr P := by
      rw [← hipfp, natOfStr_append]
    have h2 : natOfStr P = m.natAbs := by
      rw [hP, natOfStr_append, natOfStr_replicate_zero, hDval]
      simp
    calc (natOfStr ip : ℤ) * 10 ^ fp.length + (natOfStr fp : ℤ)
        = ((natOfStr ip * 10 ^ fp.length + natOfStr fp : ℕ) : ℤ) := by push_cast; ring
      _ = ((natOfStr P : ℕ) : ℤ) := by rw [h1]
      _ = (m.natAbs : ℤ) := by rw [h2]
  convert normFloat_id m e hmod hm using 2
  · rw [hmant]
    by_cases hneg : m < 0
    · rw [if_pos hneg]
      omega
    · rw [if_neg hneg]
      omega
  · rw [hfplen]
    omega

/-- Any normalized finite float re-parses from its rendering to itself. -/
theorem parseFloat_floatRepr (m e : ℤ) (h : IsNormFloat m e) :
    parseFloat (floatRepr (.finite m e)) = some (.finite m e) := by
  by_cases hm : m = 0
  · have he : e = 0 := by
      rcases h with ⟨-, he⟩ | hmod
      · exact he
      · exact absurd (by simp [hm]) hmod
    subst hm
    subst he
    decide
  · have hmod : ¬ m % 10 = 0 := by
      rcases h with ⟨h0, -⟩ | hmod
      · exact absurd h0 hm
      · exact hmod
    by_cases he : 0 ≤ e
    · exact parseFloat_floatRepr_nonneg m e hm hmod he
    · exact parseFloat_floatRepr_neg m e hm hmod he

/-! ## Re-inference of rendered values -/

theorem parseFloat_finite_norm {v : Str} {m e : ℤ}
    (h : parseFloat v = some (.finite m e)) : IsNormFloat m e := by
  unfold parseFloat at h
  cases hrs : readSign (pyStrip v) with
  | mk sg body =>
    rw [hrs] at h
    replace h : (if pyLower body = "inf".data ∨ pyLower body = "infinity".data
        then some (PyFloat.inf (decide (sg < 0)))
        else if pyLower body = "nan".data then some PyFloat.nan
        else Option.map (fun p => match normFloat (sg * p.1) p.2 with
          | (m', e') => PyFloat.finite m' e') (parseNumBody body))
        = some (PyFloat.finite m e) := h
    by_cases h1 : pyLower body = "inf".data ∨ pyLower body = "infinity".data
    · rw [if_pos h1] at h
      cases h
    · rw [if_neg h1] at h
      by_cases h2 : pyLower body = "nan".data
      · rw [if_pos h2] at h
        cases h
      · rw [if_neg h2] at h
        cases hb : parseNumBody body with
        | none => rw [hb] at h; cases h
        | some p =>
          rw [hb] at h
          simp only [Option.map_some', Option.some_inj] at h
          have hn := normFloat_norm (sg * p.1) p.2
          cases hnf : normFloat (sg * p.1) p.2 with
          | mk m' e' =>
            rw [hnf] at h hn
            cases h
            exact hn

theorem charPyDigit_of_isDig {c : Char} (h : isDig c = true) :
    charPyDigit c = true := by
  unfold charPyDigit
  rw [h]
  rfl

theorem inferValue_natToStr (n : ℕ) : inferValue (natToStr n) = some (.int n) := by
  obtain ⟨hval, hdig, hne⟩ := natToStr_spec n
  obtain ⟨d0, t0, h0⟩ : ∃ d0 t0, natToStr n = d0 :: t0 := by
    cases hh : natToStr n with
    | nil => exact absurd hh hne
    | cons a b => exact ⟨a, b, rfl⟩
  have hd0 : isDig d0 = true := hdig d0 (by rw [h0]; exact List.mem_cons_self _ _)
  have hhead : (natToStr n).head? = some d0 := by rw [h0]; rfl
  have hlow := toLower_digit hd0
  have htrue : ¬ pyLower (natToStr n) = "true".data :=
    pyLower_ne_of_head hhead (show "true".data.head? = some 't' from rfl)
      (by rw [hlow]; exact ne_of_isDig hd0 (Or.inr (show 57 < ('t').toNat by decide)))
  have hfalse : ¬ pyLower (natToStr n) = "false".data :=
    pyLower_ne_of_head hhead (show "false".data.head? = some 'f' from rfl)
      (by rw [hlow]; exact ne_of_isDig hd0 (Or.inr (show 57 < ('f').toNat by decide)))
  have hdig2 : pyIsDigit (natToStr n) = true := by
    unfold pyIsDigit
    rw [h0]
    simp only [List.isEmpty_cons, Bool.not_false, Bool.true_and]
    rw [List.all_eq_true]
    intro c hc
    exact charPyDigit_of_isDig (hdig c (h0 ▸ hc))
  have hint : pyIntParse (natToStr n) = some (n : ℤ) := by
    unfold pyIntParse
    rw [if_pos]
    · rw [hval]
    · rw [h0]
      simp only [List.isEmpty_cons, Bool.not_false, Bool.true_and]
      rw [List.all_eq_true]
      intro c hc
      exact hdig c (h0 ▸ hc)
  unfold inferValue
  rw [if_neg htrue, if_neg hfalse, if_pos hdig2, hint]
  rfl

theorem dot_mem_floatRepr (m e : ℤ) : '.' ∈ floatRepr (.finite m e) := by
  simp only [floatRepr]
  by_cases he : 0 ≤ e
  · rw [if_pos he]
    have hmem : '.' ∈ natToStr (m.natAbs * 10 ^ e.toNat) ++ ".0".data :=
      List.mem_append_right _ (by decide)
    by_cases hneg : m < 0
    · rw [if_pos hneg]
      exact List.mem_cons_of_mem _ hmem
    · rw [if_neg hneg]
      exact hmem
  · rw [if_neg he]
    have hmem : '.' ∈ (List.replicate ((-e).toNat + 1 - (natToStr m.natAbs).length) '0'
          ++ natToStr m.natAbs).take ((List.replicate ((-e).toNat + 1
            - (natToStr m.natAbs).length) '0' ++ natToStr m.natAbs).length - (-e).toNat)
        ++ '.' :: (List.replicate ((-e).toNat + 1 - (natToStr m.natAbs).length) '0'
          ++ natToStr m.natAbs).drop ((List.replicate ((-e).toNat + 1
            - (natToStr m.natAbs).length) '0' ++ natToStr m.natAbs).length - (-e).toNat) :=
      List.mem_append_right _ (List.mem_cons_self _ _)
    by_cases hneg : m < 0
    · rw [if_pos hneg]
      exact List.mem_cons_of_mem _ hmem
    · rw [if_neg hneg]
      exact hmem

theorem pyLower_ne_of_dot {s : Str} (h : '.' ∈ s) (L : Str)
    (hL : ('.' : Char) ∉ L) : ¬ pyLower s = L := by
  intro he
  have hmem : '.' ∈ pyLower s := by
    have := List.mem_map_of_mem Char.toLower h
    simpa [show Char.toLower '.' = '.' from rfl, pyLower] using this
  rw [he] at hmem
  exact hL hmem

theorem inferValue_floatRepr {v : Str} {f : PyFloat}
    (h : parseFloat v = some f) :
    inferValue (floatRepr f) = some (.float f) := by
  cases f with
  | nan => decide
  | inf b => cases b <;> decide
  | finite m e =>
    have hnorm := parseFloat_finite_norm h
    have hdot := dot_mem_floatRepr m e
    have htrue : ¬ pyLower (floatRepr (.finite m e)) = "true".data :=
      pyLower_ne_of_dot hdot _ (by decide)
    have hfalse : ¬ pyLower (floatRepr (.finite m e)) = "false".data :=
      pyLower_ne_of_dot hdot _ (by decide)
    have hdig : pyIsDigit (floatRepr (.finite m e)) = false :=
      pyIsDigit_false_of_mem hdot (by decide)
    unfold inferValue
    rw [if_neg htrue, if_neg hfalse, hdig,
      if_neg (show ¬ (false = true) from Bool.false_ne_true)]
    rw [parseFloat_floatRepr m e hnorm]

/-! ## Facts about stripped lines and inferred values -/

theorem headOKb_dropWhile (s : Str) :
    headOKb (s.dropWhile isPySpace) = true := by
  induction s with
  | nil => rfl
  | cons c t ih =>
    rw [List.dropWhile_cons]
    by_cases hc : isPySpace c = true
    · rw [if_pos hc]
      exact ih
    · rw [if_neg hc]
      simp only [headOKb]
      rw [Bool.not_eq_true] at hc
      rw [hc]
      rfl

theorem lastOKb_nil : lastOKb ([] : Str) = true := rfl

theorem lastOKb_dropWhile {s : Str} (h : lastOKb s = true) :
    lastOKb (s.dropWhile isPySpace) = true := by
  induction s with
  | nil => rfl
  | cons c t ih =>
    rw [List.dropWhile_cons]
    by_cases hc : isPySpace c = true
    · rw [if_pos hc]
      apply ih
      cases ht : t with
      | nil => exact lastOKb_nil
      | cons c2 t2 =>
        rw [← ht]
        have : lastOKb (c :: t) = lastOKb t := by
          rw [show (c :: t : Str) = [c] ++ t from rfl]
          exact lastOKb_append [c] t (by rw [ht]; simp)
        rw [← this]
        exact h
    · rw [if_neg hc]
      exact h

theorem pyStrip_headOK (l : Str) : headOKb (pyStrip l) = true := by
  show headOKb (((l.dropWhile isPySpace).reverse.dropWhile isPySpace)).reverse = true
  show lastOKb ((l.dropWhile isPySpace).reverse.dropWhile isPySpace) = true
  apply lastOKb_dropWhile
  show headOKb (l.dropWhile isPySpace).reverse.reverse = true
  rw [List.reverse_reverse]
  exact headOKb_dropWhile l

theorem pyStrip_lastOK (l : Str) : lastOKb (pyStrip l) = true := by
  show headOKb (((l.dropWhile isPySpace).reverse.dropWhile isPySpace)).reverse.reverse = true
  rw [List.reverse_reverse]
  exact headOKb_dropWhile _

theorem mem_of_mem_pyStrip {c : Char} {l : Str} (h : c ∈ pyStrip l) : c ∈ l := by
  unfold pyStrip at h
  rw [List.mem_reverse] at h
  have h2 := (List.dropWhile_sublist (l := (l.dropWhile isPySpace).reverse)
    (p := isPySpace)).subset h
  rw [List.mem_reverse] at h2
  exact (List.dropWhile_sublist (l := l) (p := isPySpace)).subset h2

theorem lineClean_of_subset {s t : Str} (hsub : ∀ c ∈ t, c ∈ s)
    (h : lineClean s = true) : lineClean t = true := by
  unfold lineClean at *
  rw [List.all_eq_true] at *
  intro c hc
  exact h c (hsub c hc)

theorem isEmpty_false_of_ne {s : Str} (h : s ≠ []) : s.isEmpty = false := by
  cases s with
  | nil => exact absurd rfl h
  | cons a b => rfl

/-- Everything the strip/split of a clean non-blank line guarantees about
the resulting key and raw value. -/
theorem lineEntry?_facts {l k v : Str} (hcl : lineClean l = true)
    (h : lineEntry? l = some (k, v)) :
    ¬ k = [] ∧ headOKb k = true ∧ lineClean k = true ∧ (' ' ∉ k)
    ∧ lineClean v = true
    ∧ (v = [] → lastOKb k = true)
    ∧ (¬ v = [] → lastOKb v = true) := by
  unfold lineEntry? at h
  by_cases hs : (pyStrip l).isEmpty = true
  · rw [if_pos hs] at h
    cases h
  · rw [if_neg hs] at h
    injection h with h1
    have hk : (keyValueOf (pyStrip l)).1 = k := congrArg Prod.fst h1
    have hv : (keyValueOf (pyStrip l)).2 = v := congrArg Prod.snd h1
    subst hk
    subst hv
    have hsne : pyStrip l ≠ [] := by
      intro h0
      rw [h0] at hs
      exact hs rfl
    have hclS : lineClean (pyStrip l) = true :=
      lineClean_of_subset (fun c hc => mem_of_mem_pyStrip hc) hcl
    have hhS := pyStrip_headOK l
    have hlS := pyStrip_lastOK l
    have hnospace := keyValueOf_fst_no_space (pyStrip l)
    rcases keyValueOf_decomp (pyStrip l) with ⟨hv0, hsk⟩ | hsk
    · refine ⟨?_, ?_, ?_, hnospace, ?_, ?_, ?_⟩
      · rw [← hsk]; exact hsne
      · rw [← hsk]; exact hhS
      · rw [← hsk]; exact hclS
      · rw [hv0]; rfl
      · intro _; rw [← hsk]; exact hlS
      · intro hvne; exact absurd hv0 hvne
    · have hkne : (keyValueOf (pyStrip l)).1 ≠ [] := by
        intro h0
        rw [h0] at hsk
        rw [hsk] at hhS
        exact absurd hhS (by simp [headOKb, isPySpace])
      refine ⟨hkne, ?_, ?_, hnospace, ?_, ?_, ?_⟩
      · rw [hsk, headOKb_append _ _ hkne] at hhS
        exact hhS
      · refine lineClean_of_subset (fun c hc => ?_) hclS
        rw [hsk]
        exact List.mem_append_left _ hc
      · refine lineClean_of_subset (fun c hc => ?_) hclS
        rw [hsk]
        exact List.mem_append_right _ (List.mem_cons_of_mem _ hc)
      · intro hv0
        rw [hv0] at hsk
        rw [hsk] at hlS
        rw [lastOKb_append _ [' '] (by simp)] at hlS
        exact absurd hlS (by simp [lastOKb, headOKb, isPySpace])
      · intro hvne
        rw [hsk] at hlS
        rw [show ((keyValueOf (pyStrip l)).1 ++ ' ' :: (keyValueOf (pyStrip l)).2 : Str)
            = ((keyValueOf (pyStrip l)).1 ++ [' ']) ++ (keyValueOf (pyStrip l)).2
            from by simp] at hlS
        rw [lastOKb_append _ _ hvne] at hlS
        exact hlS
/-! ## Cleanliness of rendered values -/

theorem safeChar_lineClean {s : Str}
    (h : ∀ c ∈ s, c = '-' ∨ c = '.' ∨ isDig c = true) : lineClean s = true := by
  unfold lineClean
  rw [List.all_eq_true]
  intro c hc
  rcases h c hc with h1 | h1 | h1
  · subst h1; decide
  · subst h1; decide
  · obtain ⟨hlo, hhi⟩ := isDig_toNat h1
    simp only [Bool.and_eq_true, Bool.not_eq_true', decide_eq_false_iff_not]
    constructor
    · intro heq
      subst heq
      exact absurd hlo (by decide)
    · intro heq
      subst heq
      exact absurd hlo (by decide)

theorem lastOKb_of_ne_nil_chars {s : Str} (hne : s ≠ [])
    (h : ∀ c ∈ s, c = '-' ∨ c = '.' ∨ isDig c = true) : lastOKb s = true := by
  cases hg : s.getLast? with
  | none => exact absurd (List.getLast?_eq_none_iff.1 hg) hne
  | some c =>
    refine lastOKb_of_getLast? hg ?_
    rcases h c (mem_of_getLast?_eq hg) with h1 | h1 | h1
    · subst h1; decide
    · subst h1; decide
    · exact isPySpace_of_isDig h1

theorem natToStr_chars (n : ℕ) :
    ∀ c ∈ natToStr n, c = '-' ∨ c = '.' ∨ isDig c = true :=
  fun c hc => Or.inr (Or.inr ((natToStr_spec n).2.1 c hc))

theorem lineClean_natToStr (n : ℕ) : lineClean (natToStr n) = true :=
  safeChar_lineClean (natToStr_chars n)

theorem lastOKb_natToStr (n : ℕ) : lastOKb (natToStr n) = true :=
  lastOKb_of_ne_nil_chars (natToStr_spec n).2.2 (natToStr_chars n)

theorem intRepr_ofNat (n : ℕ) : intRepr (n : ℤ) = natToStr n := by
  unfold intRepr
  rw [if_neg (by omega : ¬ (n : ℤ) < 0)]
  rw [show ((n : ℤ)).natAbs = n from rfl]

theorem floatRepr_chars (m e : ℤ) :
    ∀ c ∈ floatRepr (.finite m e), c = '-' ∨ c = '.' ∨ isDig c = true := by
  have hA : ∀ c2 ∈ natToStr (m.natAbs * 10 ^ e.toNat) ++ ".0".data,
      c2 = '-' ∨ c2 = '.' ∨ isDig c2 = true := by
    intro c2 hc2
    rcases List.mem_append.1 hc2 with h' | h'
    · exact Or.inr (Or.inr ((natToStr_spec _).2.1 c2 h'))
    · rcases List.mem_cons.1 h' with h2 | h2
      · exact Or.inr (Or.inl h2)
      · rw [List.mem_singleton] at h2
        subst h2
        exact Or.inr (Or.inr (by decide))
  have hP : ∀ c2 ∈ List.replicate ((-e).toNat + 1 - (natToStr m.natAbs).length) '0'
      ++ natToStr m.natAbs, isDig c2 = true := by
    intro c2 hc2
    rcases List.mem_append.1 hc2 with h' | h'
    · rw [List.eq_of_mem_replicate h']
      decide
    · exact (natToStr_spec _).2.1 c2 h'
  have hB : ∀ c2 ∈ (List.replicate ((-e).toNat + 1 - (natToStr m.natAbs).length) '0'
        ++ natToStr m.natAbs).take ((List.replicate ((-e).toNat + 1
          - (natToStr m.natAbs).length) '0' ++ natToStr m.natAbs).length - (-e).toNat)
      ++ '.' :: (List.replicate ((-e).toNat + 1 - (natToStr m.natAbs).length) '0'
        ++ natToStr m.natAbs).drop ((List.replicate ((-e).toNat + 1
          - (natToStr m.natAbs).length) '0' ++ natToStr m.natAbs).length - (-e).toNat),
      c2 = '-' ∨ c2 = '.' ∨ isDig c2 = true := by
    intro c2 hc2
    rcases List.mem_append.1 hc2 with h' | h'
    · exact Or.inr (Or.inr (hP c2 (List.take_subset _ _ h')))
    · rcases List.mem_cons.1 h' with h2 | h2
      · exact Or.inr (Or.inl h2)
      · exact Or.inr (Or.inr (hP c2 (List.drop_subset _ _ h2)))
  intro c hc
  simp only [floatRepr] at hc
  by_cases he : 0 ≤ e
  · rw [if_pos he] at hc
    by_cases hm : m < 0
    · rw [if_pos hm] at hc
      rcases List.mem_cons.1 hc with h' | h'
      · exact Or.inl h'
      · exact hA c h'
    · rw [if_neg hm] at hc
      exact hA c hc
  · rw [if_neg he] at hc
    by_cases hm : m < 0
    · rw [if_pos hm] at hc
      rcases List.mem_cons.1 hc with h' | h'
      · exact Or.inl h'
      · exact hB c h'
    · rw [if_neg hm] at hc
      exact hB c hc

theorem floatRepr_finite_ne_nil (m e : ℤ) : floatRepr (.finite m e) ≠ [] := by
  intro h
  have hdot := dot_mem_floatRepr m e
  rw [h] at hdot
  cases hdot

theorem floatRepr_ne_nil (f : PyFloat) : floatRepr f ≠ [] := by
  cases f with
  | nan => decide
  | inf b => cases b <;> decide
  | finite m e => exact floatRepr_finite_ne_nil m e

theorem lineClean_floatRepr (f : PyFloat) : lineClean (floatRepr f) = true := by
  cases f with
  | nan => decide
  | inf b => cases b <;> decide
  | finite m e => exact safeChar_lineClean (floatRepr_chars m e)

theorem lastOKb_floatRepr (f : PyFloat) : lastOKb (floatRepr f) = true := by
  cases f with
  | nan => decide
  | inf b => cases b <;> decide
  | finite m e =>
    exact lastOKb_of_ne_nil_chars (floatRepr_finite_ne_nil m e) (floatRepr_chars m e)

/-! ## Entry well-formedness from inference -/

theorem valueOK_scalar_intro {k : Str} (v : Value) (hv : ∀ l, ¬ v = Value.list l)
    (h1 : inferValue (renderValue v) = some v)
    (h2 : lineClean (renderValue v) = true)
    (h3 : renderValue v = [] → lastOKb k = true)
    (h4 : ¬ renderValue v = [] → lastOKb (renderValue v) = true) :
    valueOK k v := by
  cases v with
  | list l => exact absurd rfl (hv l)
  | bool b => exact ⟨h1, h2, h3, h4⟩
  | int n => exact ⟨h1, h2, h3, h4⟩
  | float f => exact ⟨h1, h2, h3, h4⟩
  | str s => exact ⟨h1, h2, h3, h4⟩

theorem valueOK_scalar_elim {k : Str} {v : Value} (hk : ¬ k = "disks".data)
    (h : valueOK k v) :
    inferValue (renderValue v) = some v ∧ lineClean (renderValue v) = true
    ∧ (renderValue v = [] → lastOKb k = true)
    ∧ (¬ renderValue v = [] → lastOKb (renderValue v) = true) := by
  cases v with
  | list l => exact absurd h.1 hk
  | bool b => exact h
  | int n => exact h
  | float f => exact h
  | str s => exact h

theorem valueOK_of_infer {k v : Str} {w : Value}
    (hcl : lineClean v = true)
    (hke : v = [] → lastOKb k = true)
    (hve : ¬ v = [] → lastOKb v = true)
    (hinf : inferValue v = some w) :
    valueOK k w := by
  have hinf0 := hinf
  unfold inferValue at hinf
  by_cases ht : pyLower v = "true".data
  · rw [if_pos ht] at hinf
    injection hinf with h1
    subst h1
    exact valueOK_scalar_intro _ (fun l h => Value.noConfusion h) (by decide)
      (by decide) (fun h => absurd h (by decide)) (fun _ => by decide)
  · rw [if_neg ht] at hinf
    by_cases hfa : pyLower v = "false".data
    · rw [if_pos hfa] at hinf
      injection hinf with h1
      subst h1
      exact valueOK_scalar_intro _ (fun l h => Value.noConfusion h) (by decide)
        (by decide) (fun h => absurd h (by decide)) (fun _ => by decide)
    · rw [if_neg hfa] at hinf
      by_cases hd : pyIsDigit v = true
      · rw [if_pos hd] at hinf
        unfold pyIntParse at hinf
        by_cases hc : (!v.isEmpty && v.all isDig) = true
        · rw [if_pos hc] at hinf
          replace hinf : some (Value.int ((natOfStr v : ℕ) : ℤ)) = some w := hinf
          injection hinf with h1
          subst h1
          have hrv : renderValue (Value.int ((natOfStr v : ℕ) : ℤ))
              = natToStr (natOfStr v) := by
            show intRepr ((natOfStr v : ℕ) : ℤ) = natToStr (natOfStr v)
            exact intRepr_ofNat (natOfStr v)
          refine valueOK_scalar_intro _ (fun l h => Value.noConfusion h) ?_ ?_ ?_ ?_
          · rw [hrv]
            exact inferValue_natToStr (natOfStr v)
          · rw [hrv]
            exact lineClean_natToStr (natOfStr v)
          · rw [hrv]
            intro h
            exact absurd h (natToStr_spec (natOfStr v)).2.2
          · rw [hrv]
            intro _
            exact lastOKb_natToStr (natOfStr v)
        · rw [if_neg hc] at hinf
          replace hinf : (none : Option Value) = some w := hinf
          cases hinf
      · rw [if_neg hd] at hinf
        cases hpf : parseFloat v with
        | some f =>
          rw [hpf] at hinf
          replace hinf : some (Value.float f) = some w := hinf
          injection hinf with h1
          subst h1
          refine valueOK_scalar_intro _ (fun l h => Value.noConfusion h) ?_ ?_ ?_ ?_
          · exact inferValue_floatRepr hpf
          · exact lineClean_floatRepr f
          · intro h
            exact absurd h (floatRepr_ne_nil f)
          · intro _
            exact lastOKb_floatRepr f
        | none =>
          rw [hpf] at hinf
          replace hinf : some (Value.str v) = some w := hinf
          injection hinf with h1
          subst h1
          exact valueOK_scalar_intro _ (fun l h => Value.noConfusion h) hinf0 hcl hke hve

/-! ## Well-formedness of the parsed document -/

theorem fold_WF : ∀ (lines : List Str) (st st' : Config × List Str),
    (∀ l ∈ lines, lineClean l = true) →
    (st.1.map Prod.fst).Nodup →
    (∀ p ∈ st.1, entryOK p) →
    (∀ d ∈ st.2, lineClean d = true ∧ lastOKb d = true) →
    List.foldlM processLine st lines = some st' →
    (st'.1.map Prod.fst).Nodup ∧ (∀ p ∈ st'.1, entryOK p)
      ∧ (∀ d ∈ st'.2, lineClean d = true ∧ lastOKb d = true) := by
  intro lines
  induction lines with
  | nil =>
    intro st st' _ h1 h2 h3 h
    simp only [List.foldlM_nil] at h
    cases h
    exact ⟨h1, h2, h3⟩
  | cons l ls ih =>
    intro st st' hcl h1 h2 h3 h
    simp only [List.foldlM_cons] at h
    cases hpl : processLine st l with
    | none => rw [hpl] at h; cases h
    | some st1 =>
      rw [hpl] at h
      have hcll : lineClean l = true := hcl l (List.mem_cons_self l ls)
      have hcls : ∀ x ∈ ls, lineClean x = true :=
        fun x hx => hcl x (List.mem_cons_of_mem l hx)
      cases he : lineEntry? l with
      | none =>
        rw [processLine_blank st l he] at hpl
        injection hpl with h0
        subst h0
        exact ih st st' hcls h1 h2 h3 h
      | some kv =>
        obtain ⟨k, v⟩ := kv
        obtain ⟨hk1, hk2, hk3, hk4, hv5, hv6, hv7⟩ := lineEntry?_facts hcll he
        rw [processLine_entry st l k v he] at hpl
        by_cases hkd : k = "disk".data
        · rw [if_pos hkd] at hpl
          injection hpl with h0
          subst h0
          refine ih (st.1, st.2 ++ [v]) st' hcls h1 h2 ?_ h
          intro d hd
          rcases List.mem_append.1 hd with h' | h'
          · exact h3 d h'
          · rw [List.mem_singleton] at h'
            subst h'
            refine ⟨hv5, ?_⟩
            by_cases hv0 : d = []
            · subst hv0
              exact lastOKb_nil
            · exact hv7 hv0
        · rw [if_neg hkd] at hpl
          cases hw : inferValue v with
          | none => rw [hw] at hpl; cases hpl
          | some w =>
            rw [hw] at hpl
            replace hpl : some (insertKV st.1 k w, st.2) = some st1 := hpl
            injection hpl with h0
            subst h0
            refine ih (insertKV st.1 k w, st.2) st' hcls
              (insertKV_nodup _ _ _ h1) ?_ h3 h
            intro p hp
            rcases insertKV_mem hp with h' | h'
            · subst h'
              exact ⟨hk1, hk2, hk3, hk4, hkd, valueOK_of_infer hv5 hv6 hv7 hw⟩
            · exact h2 p h'

theorem parseLines_WF {lines : List Str} {cfg : Config}
    (hcl : ∀ l ∈ lines, lineClean l = true)
    (h : parseLines lines = some cfg) :
    WFcfg cfg ∧ ∃ ds : List Str,
      lookupVal cfg "disks".data = some (Value.list ds)
      ∧ (∀ d ∈ ds, lineClean d = true ∧ lastOKb d = true) := by
  unfold parseLines at h
  cases hst : List.foldlM processLine ([], []) lines with
  | none => rw [hst] at h; cases h
  | some st =>
    rw [hst] at h
    replace h : some (insertKV st.1 "disks".data (Value.list st.2)) = some cfg := h
    injection h with h0
    subst h0
    obtain ⟨hn, he, hd⟩ := fold_WF lines ([], []) st hcl (by simp)
      (by intro p hp; simp at hp) (by intro d hd2; simp at hd2) hst
    refine ⟨⟨insertKV_nodup _ _ _ hn, ?_⟩, st.2, lookupVal_insert_self _ _ _, hd⟩
    intro p hp
    rcases insertKV_mem hp with h' | h'
    · subst h'
      refine ⟨?_, ?_, ?_, ?_, ?_, ?_⟩
      · show ¬ ("disks".data : Str) = []
        decide
      · show headOKb "disks".data = true
        decide
      · show lineClean "disks".data = true
        decide
      · show (' ' ∉ "disks".data)
        decide
      · show ¬ ("disks".data : Str) = "disk".data
        decide
      · exact ⟨rfl, fun d hdd => hd d hdd⟩
    · exact he p h'

/-! ## Re-parsing the saved text -/

theorem disksOf_eq {cfg : Config} {ds : List Str}
    (h : lookupVal cfg "disks".data = some (Value.list ds)) : disksOf cfg = ds := by
  unfold disksOf
  rw [h]

theorem filter_keys_ne {cfg : Config} {p : Str × Value}
    (hp : p ∈ cfg.filter (fun q => decide (¬ q.1 = "disks".data))) :
    p ∈ cfg ∧ ¬ p.1 = "disks".data := by
  have h2 := List.mem_filter.1 hp
  exact ⟨h2.1, by simpa using h2.2⟩

theorem disks_not_mem_filter (cfg : Config) :
    "disks".data ∉ (cfg.filter (fun q => decide (¬ q.1 = "disks".data))).map Prod.fst := by
  intro h
  obtain ⟨p, hp, hpe⟩ := List.mem_map.1 h
  exact (filter_keys_ne hp).2 hpe

theorem filter_keys_nodup {cfg : Config} (h : (cfg.map Prod.fst).Nodup) :
    ((cfg.filter (fun q => decide (¬ q.1 = "disks".data))).map Prod.fst).Nodup :=
  List.Nodup.sublist (List.Sublist.map Prod.fst (List.filter_sublist cfg)) h

theorem processLine_scalarline (st : Config × List Str) (k : Str) (v : Value)
    (hk1 : ¬ k = []) (hk2 : headOKb k = true) (hk4 : ' ' ∉ k)
    (hkd : ¬ k = "disk".data)
    (hOK : inferValue (renderValue v) = some v)
    (hke : renderValue v = [] → lastOKb k = true)
    (hve : ¬ renderValue v = [] → lastOKb (renderValue v) = true) :
    processLine st (k ++ ' ' :: renderValue v) = some (insertKV st.1 k v, st.2) := by
  by_cases hR : renderValue v = []
  · have hst2 : pyStrip (k ++ [' ']) = k := pyStrip_key_space k hk1 hk2 (hke hR)
    have hle : lineEntry? (k ++ ' ' :: renderValue v) = some (k, renderValue v) := by
      rw [hR]
      show lineEntry? (k ++ [' ']) = some (k, [])
      unfold lineEntry?
      rw [hst2]
      show (if List.isEmpty k = true then none else some (keyValueOf k)) = some (k, [])
      rw [isEmpty_false_of_ne hk1, if_neg Bool.false_ne_true,
        keyValueOf_no_space k hk4]
    rw [processLine_entry st _ k (renderValue v) hle, if_neg hkd, hOK]
    rfl
  · have hlast := hve hR
    have hh2 : headOKb (k ++ ' ' :: renderValue v) = true := by
      rw [headOKb_append _ _ hk1]
      exact hk2
    have hl2 : lastOKb (k ++ ' ' :: renderValue v) = true := by
      rw [show (k ++ ' ' :: renderValue v : Str)
          = (k ++ [' ']) ++ renderValue v from by simp]
      rw [lastOKb_append _ _ hR]
      exact hlast
    have hne2 : (k ++ ' ' :: renderValue v : Str) ≠ [] := by simp
    have hle : lineEntry? (k ++ ' ' :: renderValue v) = some (k, renderValue v) := by
      unfold lineEntry?
      rw [pyStrip_noop _ hh2 hl2]
      show (if List.isEmpty (k ++ ' ' :: renderValue v) = true then none
          else some (keyValueOf (k ++ ' ' :: renderValue v))) = some (k, renderValue v)
      rw [isEmpty_false_of_ne hne2, if_neg Bool.false_ne_true,
        keyValueOf_append k _ hk4]
    rw [processLine_entry st _ k (renderValue v) hle, if_neg hkd, hOK]
    rfl

theorem fold_scalarLines : ∀ (ps m : Config) (ds0 : List Str),
    (∀ p ∈ ps,
      ¬ p.1 = [] ∧ headOKb p.1 = true ∧ (' ' ∉ p.1) ∧ ¬ p.1 = "disk".data
      ∧ inferValue (renderValue p.2) = some p.2
      ∧ (renderValue p.2 = [] → lastOKb p.1 = true)
      ∧ (¬ renderValue p.2 = [] → lastOKb (renderValue p.2) = true)) →
    (∀ p ∈ ps, lookupVal m p.1 = none) →
    (ps.map Prod.fst).Nodup →
    List.foldlM processLine (m, ds0) (ps.map (fun p => p.1 ++ ' ' :: renderValue p.2))
      = some (m ++ ps, ds0) := by
  intro ps
  induction ps with
  | nil =>
    intro m ds0 _ _ _
    simp
  | cons p rest ih =>
    intro m ds0 hf hlk hnd
    simp only [List.map_cons, List.foldlM_cons]
    obtain ⟨f1, f2, f3, f4, f5, f6, f7⟩ := hf p (List.mem_cons_self p rest)
    rw [processLine_scalarline (m, ds0) p.1 p.2 f1 f2 f3 f4 f5 f6 f7]
    show List.foldlM processLine (insertKV m p.1 p.2, ds0)
        (rest.map (fun q => q.1 ++ ' ' :: renderValue q.2)) = some (m ++ p :: rest, ds0)
    rw [insertKV_fresh m p.1 p.2 (hlk p (List.mem_cons_self p rest))]
    have hnd' : (rest.map Prod.fst).Nodup := by
      rw [List.map_cons, List.nodup_cons] at hnd
      exact hnd.2
    have hp1 : p.1 ∉ rest.map Prod.fst := by
      rw [List.map_cons, List.nodup_cons] at hnd
      exact hnd.1
    have hlk' : ∀ q ∈ rest, lookupVal (m ++ [(p.1, p.2)]) q.1 = none := by
      intro q hq
      have hq1 : ¬ p.1 = q.1 := by
        intro heq
        exact hp1 (heq ▸ List.mem_map_of_mem Prod.fst hq)
      rw [lookupVal_append_right _ (hlk q (List.mem_cons_of_mem p hq))]
      show (if p.1 = q.1 then some p.2 else lookupVal [] q.1) = none
      rw [if_neg hq1]
      rfl
    rw [ih (m ++ [(p.1, p.2)]) ds0 (fun q hq => hf q (List.mem_cons_of_mem p hq))
      hlk' hnd']
    rw [List.append_assoc]
    rfl

theorem save_reparse (cfg : Config) (ds : List Str)
    (hWF : WFcfg cfg)
    (hld : lookupVal cfg "disks".data = some (Value.list ds))
    (hdc : ∀ d ∈ ds, lineClean d = true ∧ lastOKb d = true) :
    parse (some (save cfg))
      = some ((cfg.filter (fun q => decide (¬ q.1 = "disks".data)))
          ++ [("disks".data, Value.list ds)]) := by
  obtain ⟨hnodup, hent⟩ := hWF
  have hdisks := disksOf_eq hld
  have hscal : ∀ p ∈ cfg.filter (fun q => decide (¬ q.1 = "disks".data)),
      ¬ p.1 = [] ∧ headOKb p.1 = true ∧ (' ' ∉ p.1) ∧ ¬ p.1 = "disk".data
      ∧ inferValue (renderValue p.2) = some p.2
      ∧ (renderValue p.2 = [] → lastOKb p.1 = true)
      ∧ (¬ renderValue p.2 = [] → lastOKb (renderValue p.2) = true) := by
    intro p hp
    obtain ⟨hpc, hpne⟩ := filter_keys_ne hp
    obtain ⟨e1, e2, e3, e4, e5, e6⟩ := hent p hpc
    obtain ⟨s1, s2, s3, s4⟩ := valueOK_scalar_elim hpne e6
    exact ⟨e1, e2, e4, e5, s1, s3, s4⟩
  have hclean2 : ∀ p ∈ cfg.filter (fun q => decide (¬ q.1 = "disks".data)),
      lineClean p.1 = true ∧ lineClean (renderValue p.2) = true := by
    intro p hp
    obtain ⟨hpc, hpne⟩ := filter_keys_ne hp
    obtain ⟨-, -, e3, -, -, e6⟩ := hent p hpc
    obtain ⟨-, s2, -, -⟩ := valueOK_scalar_elim hpne e6
    exact ⟨e3, s2⟩
  have hlines : ∀ l ∈ saveLines cfg, lineClean l = true := by
    intro l hl
    unfold saveLines at hl
    rcases List.mem_append.1 hl with h' | h'
    · obtain ⟨d, hdd, rfl⟩ := List.mem_map.1 h'
      rw [hdisks] at hdd
      rw [lineClean_append, (hdc d hdd).1]
      decide
    · obtain ⟨p, hp, rfl⟩ := List.mem_map.1 h'
      obtain ⟨c1, c2⟩ := hclean2 p hp
      rw [show (p.1 ++ ' ' :: renderValue p.2 : Str)
          = p.1 ++ ([' '] ++ renderValue p.2) from rfl]
      rw [lineClean_append, c1, lineClean_append, c2]
      decide
  show parseLines (pySplitLines (joinLines (saveLines cfg))) = _
  rw [pySplitLines_join _ hlines]
  show parseLines ((disksOf cfg).map (fun d => "disk ".data ++ d)
      ++ (cfg.filter (fun q => decide (¬ q.1 = "disks".data))).map
          (fun p => p.1 ++ ' ' :: renderValue p.2)) = _
  unfold parseLines
  rw [foldlM_append_opt, hdisks]
  rw [fold_diskLines ds ([], []) (fun d hd2 => (hdc d hd2).2)]
  show (List.foldlM processLine (([] : Config), ds)
        ((cfg.filter (fun q => decide (¬ q.1 = "disks".data))).map
          (fun p => p.1 ++ ' ' :: renderValue p.2))).bind
      (fun st => some (insertKV st.1 "disks".data (Value.list st.2))) = _
  rw [fold_scalarLines (cfg.filter (fun q => decide (¬ q.1 = "disks".data))) [] ds
    hscal (fun p _ => rfl) (filter_keys_nodup hnodup)]
  show some (insertKV (([] : Config) ++ cfg.filter (fun q => decide (¬ q.1 = "disks".data)))
      "disks".data (Value.list ds)) = _
  rw [List.nil_append]
  rw [insertKV_fresh _ _ _ (lookupVal_eq_none (disks_not_mem_filter cfg))]

/-! ## Python equality of the document and its reparse -/

theorem pyValueEq_refl (v : Value) (h : ¬ v = Value.float .nan) :
    pyValueEq v v = true := by
  cases v with
  | bool b => cases b <;> decide
  | int n =>
    show numEq (.fin n 0) (.fin n 0) = true
    simp [numEq]
  | float f =>
    cases f with
    | finite m e =>
      show numEq (.fin m e) (.fin m e) = true
      simp [numEq]
    | inf b =>
      show (b == b) = true
      simp
    | nan => exact absurd rfl h
  | str s => simp [pyValueEq]
  | list l => simp [pyValueEq]

theorem pyDictEq_intro (a b : Config)
    (h1 : ∀ p ∈ a, ∃ w, lookupVal b p.1 = some w ∧ pyValueEq p.2 w = true)
    (h2 : ∀ p ∈ b, (lookupVal a p.1).isSome = true) :
    pyDictEq a b = true := by
  unfold pyDictEq
  rw [Bool.and_eq_true]
  constructor
  · rw [List.all_eq_true]
    intro p hp
    obtain ⟨w, hw, heq⟩ := h1 p hp
    show (match lookupVal b p.1 with
      | some w => pyValueEq p.2 w
      | none => false) = true
    rw [hw]
    exact heq
  · rw [List.all_eq_true]
    intro p hp
    exact h2 p hp

theorem roundtrip_dictEq (cfg : Config) (ds : List Str)
    (hnodup : (cfg.map Prod.fst).Nodup)
    (hld : lookupVal cfg "disks".data = some (Value.list ds))
    (hnan : ∀ p ∈ cfg, ¬ p.2 = Value.float .nan) :
    pyDictEq cfg ((cfg.filter (fun q => decide (¬ q.1 = "disks".data)))
      ++ [("disks".data, Value.list ds)]) = true := by
  refine pyDictEq_intro _ _ ?_ ?_
  · intro p hp
    by_cases hpd : p.1 = "disks".data
    · have hpv : p.2 = Value.list ds := by
        have hlm := lookupVal_of_mem hnodup hp
        rw [hpd, hld] at hlm
        injection hlm with h0
        exact h0.symm
      refine ⟨Value.list ds, ?_, ?_⟩
      · rw [hpd, lookupVal_append_right _ (lookupVal_eq_none (disks_not_mem_filter cfg))]
        show (if ("disks".data : Str) = "disks".data then some (Value.list ds)
            else lookupVal [] "disks".data) = some (Value.list ds)
        rw [if_pos rfl]
      · rw [hpv]
        simp [pyValueEq]
    · have hpf : p ∈ cfg.filter (fun q => decide (¬ q.1 = "disks".data)) := by
        rw [List.mem_filter]
        exact ⟨hp, by simpa using hpd⟩
      exact ⟨p.2, lookupVal_append_left _
        (lookupVal_of_mem (filter_keys_nodup hnodup) hpf), pyValueEq_refl p.2 (hnan p hp)⟩
  · intro p hp
    rcases List.mem_append.1 hp with h' | h'
    · rw [lookupVal_of_mem hnodup (filter_keys_ne h').1]
      rfl
    · rw [List.mem_singleton] at h'
      subst h'
      show (lookupVal cfg "disks".data).isSome = true
      rw [hld]
      rfl

/-! ## Cleanliness of split lines -/

theorem splitLinesAux_clean : ∀ (s : Str) (b : Bool) (l : Str),
    l ∈ splitLinesAux b s → lineClean l = true := by
  intro s
  induction s with
  | nil =>
    intro b l hl
    simp [splitLinesAux] at hl
  | cons c rest ih =>
    intro b l hl
    by_cases hc1 : c = '\n'
    · subst hc1
      rw [show splitLinesAux b ('\n' :: rest)
          = if b then splitLinesAux false rest
            else [] :: splitLinesAux false rest from rfl] at hl
      cases b with
      | true => exact ih false l (by simpa using hl)
      | false =>
        rcases List.mem_cons.1 (by simpa using hl) with h' | h'
        · subst h'
          rfl
        · exact ih false l h'
    · by_cases hc2 : c = '\r'
      · subst hc2
        rw [show splitLinesAux b ('\r' :: rest)
            = [] :: splitLinesAux true rest from rfl] at hl
        rcases List.mem_cons.1 hl with h' | h'
        · subst h'
          rfl
        · exact ih true l h'
      · rw [show splitLinesAux b (c :: rest)
            = if c = '\n' then (if b then splitLinesAux false rest
                else [] :: splitLinesAux false rest)
              else if c = '\r' then [] :: splitLinesAux true rest
              else match splitLinesAux false rest with
                | [] => [[c]]
                | l2 :: ls => (c :: l2) :: ls from rfl] at hl
        rw [if_neg hc1, if_neg hc2] at hl
        cases hrec : splitLinesAux false rest with
        | nil =>
          rw [hrec] at hl
          replace hl : l ∈ [[c]] := hl
          rw [List.mem_singleton] at hl
          subst hl
          show lineClean [c] = true
          simp [lineClean, hc1, hc2]
        | cons l2 ls =>
          rw [hrec] at hl
          replace hl : l ∈ (c :: l2) :: ls := hl
          rcases List.mem_cons.1 hl with h' | h'
          · subst h'
            have hl2 : lineClean l2 = true :=
              ih false l2 (by rw [hrec]; exact List.mem_cons_self _ _)
            show lineClean (c :: l2) = true
            rw [show (c :: l2 : Str) = [c] ++ l2 from rfl, lineClean_append, hl2]
            simp [lineClean, hc1, hc2]
          · exact ih false l (by rw [hrec]; exact List.mem_cons_of_mem _ h')

theorem pySplitLines_clean (s : Str) : ∀ l ∈ pySplitLines s, lineClean l = true :=
  fun l hl => splitLinesAux_clean s false l hl

/-- Claim C1 (amended): for every document produced by `parse` from an
existing file, saving it and re-parsing the written file succeeds and
yields a document equal to the original under Python `==` — same key set,
`==` values at every key, hence same disk sequence contents and order and
same scalar pairs — provided no scalar string value is ambiguous under the
type-inference precedence (automatic for parse-produced documents) and no
scalar float value is NaN (NaN compares unequal to itself under `==`). -/
theorem claim_C1 (content : Str) (cfg : Config)
    (h : parse (some content) = some cfg)
    (_hstr : ∀ p ∈ cfg, ∀ s : Str, p.2 = Value.str s → inferValue s = some (Value.str s))
    (hnan : ∀ p ∈ cfg, ¬ p.2 = Value.float .nan) :
    ∃ cfg', parse (some (save cfg)) = some cfg' ∧ pyDictEq cfg cfg' = true := by
  replace h : parseLines (pySplitLines content) = some cfg := h
  obtain ⟨⟨hnodup, hent⟩, ds, hld, hdc⟩ := parseLines_WF (pySplitLines_clean content) h
  exact ⟨_, save_reparse cfg ds ⟨hnodup, hent⟩ hld hdc,
    roundtrip_dictEq cfg ds hnodup hld hnan⟩

/-- Claim C1 witness: a concrete file with a boolean, an integer and a disk
entry parses, saves and re-parses to a `==`-equal document. -/
theorem claim_C1_witness :
    parse (some "jit true\nframeskip 6\ndisk a.img\n".data)
      = some [("jit".data, Value.bool true), ("frameskip".data, Value.int 6),
              ("disks".data, Value.list ["a.img".data])]
    ∧ ∃ cfg', parse (some (save [("jit".data, Value.bool true),
          ("frameskip".data, Value.int 6),
          ("disks".data, Value.list ["a.img".data])])) = some cfg'
        ∧ pyDictEq [("jit".data, Value.bool true), ("frameskip".data, Value.int 6),
            ("disks".data, Value.list ["a.img".data])] cfg' = true := by
  refine ⟨by decide, ?_⟩
  refine claim_C1 "jit true\nframeskip 6\ndisk a.img\n".data
    [("jit".data, Value.bool true), ("frameskip".data, Value.int 6),
     ("disks".data, Value.list ["a.img".data])] (by decide) ?_ (by decide)
  intro p hp s hs
  rcases List.mem_cons.1 hp with h1 | h1
  · subst h1
    exact Value.noConfusion hs
  · rcases List.mem_cons.1 h1 with h2 | h2
    · subst h2
      exact Value.noConfusion hs
    · rw [List.mem_singleton] at h2
      subst h2
      exact Value.noConfusion hs

/-! ## Claim C6: the saved text, line by line -/

/-- Claim C6: for every document whose keys, rendered values and disk
entries contain no line-break characters (true of every parse-produced
document), the text written by `save` consists of exactly one line per
entry: first `disk <d>` for each entry `d` of the disk sequence in
sequence order, then `<key> <value>` for each non-`disks` mapping entry in
dict iteration order.  Booleans render as the lowercase literals `true`
and `false`, strings verbatim, nonnegative integers as their plain decimal
digits (no separators), and a normal-form finite float renders to a
decimal text that `float()` reads back to the same value. -/
theorem claim_C6 (cfg : Config)
    (hk : ∀ p ∈ cfg, lineClean p.1 = true ∧ lineClean (renderValue p.2) = true)
    (hd : ∀ d ∈ disksOf cfg, lineClean d = true) :
    pySplitLines (save cfg)
      = (disksOf cfg).map (fun d => "disk ".data ++ d)
        ++ (cfg.filter (fun q => decide (¬ q.1 = "disks".data))).map
            (fun p => p.1 ++ ' ' :: renderValue p.2)
    ∧ renderValue (Value.bool true) = "true".data
    ∧ renderValue (Value.bool false) = "false".data
    ∧ (∀ s : Str, renderValue (Value.str s) = s)
    ∧ (∀ n : ℕ, renderValue (Value.int (n : ℤ)) = natToStr n
        ∧ natOfStr (natToStr n) = n
        ∧ (∀ c ∈ natToStr n, isDig c = true))
    ∧ (∀ m e : ℤ, IsNormFloat m e →
        parseFloat (renderValue (Value.float (.finite m e))) = some (.finite m e)) := by
  refine ⟨?_, rfl, rfl, fun s => rfl, ?_, ?_⟩
  · have hlines : ∀ l ∈ saveLines cfg, lineClean l = true := by
      intro l hl
      unfold saveLines at hl
      rcases List.mem_append.1 hl with h' | h'
      · obtain ⟨d, hdd, rfl⟩ := List.mem_map.1 h'
        rw [lineClean_append, hd d hdd]
        decide
      · obtain ⟨p, hp, rfl⟩ := List.mem_map.1 h'
        obtain ⟨c1, c2⟩ := hk p (List.mem_filter.1 hp).1
        rw [show (p.1 ++ ' ' :: renderValue p.2 : Str)
            = p.1 ++ ([' '] ++ renderValue p.2) from rfl]
        rw [lineClean_append, c1, lineClean_append, c2]
        decide
    show pySplitLines (joinLines (saveLines cfg)) = _
    rw [pySplitLines_join _ hlines]
    rfl
  · intro n
    refine ⟨?_, (natToStr_spec n).1, (natToStr_spec n).2.1⟩
    show intRepr (n : ℤ) = natToStr n
    exact intRepr_ofNat n
  · intro m e hnf
    show parseFloat (floatRepr (.finite m e)) = some (.finite m e)
    exact parseFloat_floatRepr m e hnf

/-- Claim C6 witness: the saved text of a small document splits into the
claimed lines. -/
theorem claim_C6_witness :
    pySplitLines (save [("jit".data, Value.bool true),
        ("disks".data, Value.list ["a.img".data])])
      = ["disk a.img".data, "jit true".data]
    ∧ renderValue (Value.bool true) = "true".data := by
  obtain ⟨h1, h2, -, -, -, -⟩ := claim_C6 [("jit".data, Value.bool true),
      ("disks".data, Value.list ["a.img".data])] (by decide) (by decide)
  refine ⟨?_, h2⟩
  rw [h1]
  decide
